import Mathlib

/-!
Verification of the HubSpot ETL pipeline's record-reconciliation core
(`ETLfunctions.py`): the deduplication engine `duplicatesManagement`, the
phone normalizer `fixPhoneNumber` and the timestamp normalizer
`formatDateTime`, shallowly embedded as executable Lean functions over an
explicit record type.  Missing values (pandas `NaN` / Python `None`) are
modelled as `Option.none`; a Python exception escaping a function is
modelled by an `Option`-valued result being `none`.
-/

namespace ETL

/-! ### Python string primitives used by the source -/

/-- Python `str.lower` on one character over the ASCII and Latin-1
blocks: `A`-`Z` (65-90) and `À`-`Þ` (192-222, excluding the multiplication
sign 215) map to the code point 32 higher, exactly as Unicode simple case
mapping does there.  This covers the whole alphabet of the UNTERM country
names the code lowercases (including, e.g., the `Å` of "Åland Islands");
case mapping outside Latin-1 does not occur in that data and is left
untouched by the model. -/
def lowerChar (c : Char) : Char :=
  if h : (65 ≤ c.toNat ∧ c.toNat ≤ 90) ∨
      (192 ≤ c.toNat ∧ c.toNat ≤ 222 ∧ c.toNat ≠ 215) then
    Char.ofNatAux (c.toNat + 32) (Or.inl (by omega))
  else c

/-- Python `str.lower` over a whole string. -/
def pyLower (s : String) : String := ⟨s.data.map lowerChar⟩

/-- Whitespace test used by Python `str.strip` (ASCII whitespace). -/
def wsChar (c : Char) : Bool :=
  c.toNat == 32 || c.toNat == 9 || c.toNat == 10 || c.toNat == 13

/-- Strip characters satisfying `wsChar` from both ends of a char list. -/
def stripWs (l : List Char) : List Char :=
  ((l.dropWhile wsChar).reverse.dropWhile wsChar).reverse

/-- Python `str.strip` (whitespace, both ends). -/
def pyStrip (s : String) : String := ⟨stripWs s.data⟩

/-- `needle.isPrefixOf hay` on char lists, written out explicitly. -/
def pfxOf : List Char → List Char → Bool
  | [], _ => true
  | _ :: _, [] => false
  | a :: as, b :: bs => a == b && pfxOf as bs

/-- Occurrence of `needle` as a contiguous run inside `hay`. -/
def subOccurs (needle : List Char) : List Char → Bool
  | [] => pfxOf needle []
  | c :: rest => pfxOf needle (c :: rest) || subOccurs needle rest

/-- Python `needle in hay` on strings (contiguous substring containment). -/
def hasSub (hay needle : String) : Bool := subOccurs needle.data hay.data

/-- One left-to-right non-overlapping pass replacing `";;"` by `";"`:
models Python `s.replace(';;', ';')` as used on industry strings. -/
def collapseChars : List Char → List Char
  | ';' :: ';' :: rest => ';' :: collapseChars rest
  | c :: rest => c :: collapseChars rest
  | [] => []

/-- Python `s.replace(';;', ';')` on strings. -/
def collapseSemis (s : String) : String := ⟨collapseChars s.data⟩

/-- Split a char list on `';'` (used to read an industry string back as a
tag list when stating properties about tag sets). -/
def splitSemi : List Char → List String
  | [] => [""]
  | ';' :: rest => "" :: splitSemi rest
  | c :: rest =>
    match splitSemi rest with
    | [] => [⟨[c]⟩]
    | t :: ts => (⟨c :: t.data⟩ : String) :: ts

/-- Tags of an industry string: its `';'`-separated components. -/
def tagsOf (s : String) : List String := splitSemi s.data

/-! ### The record type

One row of the contacts DataFrame handed to `duplicatesManagement`.
`fullname` is the extra column the function itself creates at line 271 of
the source; an input record's `fullname` value is irrelevant because the
function overwrites the whole column before using it. -/

structure Rec where
  firstname : Option String := none
  lastname : Option String := none
  fullname : Option String := none
  email : Option String := none
  address : Option String := none
  country : Option String := none
  city : Option String := none
  phone : Option String := none
  original_industry : Option String := none
  createdate : Option Int := none
deriving DecidableEq, Repr

/-! ### The sort (line 268)

`df.sort_values(by='createdate', ascending=False)` sorts descending with
missing timestamps last.  pandas removes the missing-key rows, argsorts
the rest (reversing the column before and after the argsort, so a stable
kind would give the stable descending order), and appends the missing-key
rows in their *original* order whatever the kind.  The call uses the
default `kind='quicksort'` — numpy's introsort — which is **not** stable:
above its 16-element insertion-sort cutoff its partition step reorders
tied keys (claim C5 records this as a divergence from the specification,
which mandates a stable sort).  `sortCd` below is the reference sort the
specification mandates.  It provably coincides with whatever the code
computes on every input whose present `createdate` values are pairwise
distinct: the descending order of distinct keys is unique and pandas
itself pins the missing-key tail, so any sorted rearrangement equals
`sortCd` — theorem `sortCd_eq_of_sorted_perm` below.  Theorems whose
content is sensitive to the order of tied rows therefore carry that
distinctness hypothesis. -/

/-- Before-or-equal test on `createdate` keys: descending, absent last. -/
def cdLE : Option Int → Option Int → Bool
  | some a, some b => b ≤ a
  | some _, none => true
  | none, none => true
  | none, some _ => false

/-- Row order used by the sort, as a decidable relation. -/
def recLE (a b : Rec) : Prop := cdLE a.createdate b.createdate = true

instance : DecidableRel recLE := fun _ _ => instDecidableEqBool _ _

/-- The sort of line 268 of the source. -/
def sortCd (l : List Rec) : List Rec := l.insertionSort recLE

/-- Line 271: `df['fullname'] = df['firstname'] + ' ' + df['lastname']`;
pandas' masked elementwise `+` yields a missing value when either operand
is missing. -/
def ofNames : Option String → Option String → Option String
  | some f, some l => some (f ++ " " ++ l)
  | _, _ => none

/-- Recompute the `fullname` column of one row. -/
def withFullname (r : Rec) : Rec :=
  { r with fullname := ofNames r.firstname r.lastname }

/-! ### Duplicate detection (lines 274-286) -/

/-- Number of rows of `l` whose key equals `v` (pandas `duplicated`
counts missing keys as equal to each other, matching `Option` equality). -/
def countKey (key : Rec → Option String) (l : List Rec) (v : Option String) : Nat :=
  (l.filter (fun r => key r == v)).length

/-- `df[df.duplicated(subset=k, keep=False)].dropna(subset=k)`: the rows
whose key is present and shared with at least one other row. -/
def dupsBy (key : Rec → Option String) (l : List Rec) : List Rec :=
  l.filter (fun r => (key r).isSome && decide (2 ≤ countKey key l (key r)))

/-- First-seen-order deduplication of a list of keys:
`Series.drop_duplicates` on the duplicate rows' key column. -/
def dedupFirstAux (seen : List String) : List String → List String
  | [] => []
  | x :: xs =>
    if seen.contains x then dedupFirstAux seen xs
    else x :: dedupFirstAux (x :: seen) xs

/-- The `unique_emails` / `unique_names` series (lines 284-286). -/
def dedupFirst (l : List String) : List String := dedupFirstAux [] l

/-! ### The merge loops (lines 292-340) -/

/-- First present value of a column over a group:
`series.dropna().iloc[0]` guarded by non-emptiness. -/
def firstNonNone (l : List (Option String)) : Option String :=
  (l.filterMap id).head?

/-- Backfill of one survivor field (lines 301-303 / 327-329): keep a
present value, else take the group's first present value in sort order. -/
def bf : Option String → List (Option String) → Option String
  | some v, _ => some v
  | none, donors => firstNonNone donors

/-- The industry union of lines 305-315: walk the group's present
industry strings in sort order, appending `';' + s` whenever `s` is not
already a substring of the accumulated string; report whether anything
was appended (the `counter`). -/
def addInds : String → List String → String × Bool
  | acc, [] => (acc, false)
  | acc, s :: rest =>
    if hasSub acc s then addInds acc rest
    else ((addInds (acc ++ ";" ++ s) rest).1, true)

/-- Lines 305-315 in full: the fold, the conditional leading `';'`, and
the final single `';;' -> ';'` replacement pass (applied always). -/
def mergeIndustry (cur : String) (donors : List String) : String :=
  let r := addInds cur donors
  collapseSemis (if r.2 then ";" ++ r.1 else r.1)

/-- Body of one email-group merge (lines 301-315) applied to the
survivor row `t` with group rows `donors`.  A `none` result models the
uncaught Python exception raised at line 308/315 when the survivor's
`original_industry` is missing (`in` / `.replace` on `None`). -/
def mergeEmailRec (t : Rec) (donors : List Rec) : Option Rec :=
  match t.original_industry with
  | none => none
  | some ind => some { t with
      fullname := bf t.fullname (donors.map (fun r => r.fullname)),
      address := bf t.address (donors.map (fun r => r.address)),
      country := bf t.country (donors.map (fun r => r.country)),
      city := bf t.city (donors.map (fun r => r.city)),
      phone := bf t.phone (donors.map (fun r => r.phone)),
      original_industry :=
        some (mergeIndustry ind (donors.filterMap (fun r => r.original_industry))) }

/-- One iteration of the email loop (lines 292-315): the merge target is
the first row of the working set whose email equals `e`
(`df[df['email'] == email].index[0]`), the donors are the rows of the
pre-loop duplicate snapshot with that email.  `none` models an uncaught
exception (empty selection or missing survivor industry). -/
def emailMergeStep (snap : List Rec) (l : List Rec) (e : String) : Option (List Rec) :=
  let i := l.findIdx (fun r => r.email == some e)
  match l[i]? with
  | none => none
  | some t =>
    match mergeEmailRec t (snap.filter (fun r => r.email == some e)) with
    | none => none
    | some t2 => some (l.set i t2)

/-- The whole email loop over `unique_emails`. -/
def emailPass (snap : List Rec) : List String → List Rec → Option (List Rec)
  | [], l => some l
  | e :: es, l =>
    match emailMergeStep snap l e with
    | none => none
    | some l2 => emailPass snap es l2

/-- Body of one fullname-group merge (lines 327-340): identical to the
email variant except that `email` is backfilled instead of `fullname`. -/
def mergeNameRec (t : Rec) (donors : List Rec) : Option Rec :=
  match t.original_industry with
  | none => none
  | some ind => some { t with
      email := bf t.email (donors.map (fun r => r.email)),
      address := bf t.address (donors.map (fun r => r.address)),
      country := bf t.country (donors.map (fun r => r.country)),
      city := bf t.city (donors.map (fun r => r.city)),
      phone := bf t.phone (donors.map (fun r => r.phone)),
      original_industry :=
        some (mergeIndustry ind (donors.filterMap (fun r => r.original_industry))) }

/-- One iteration of the fullname loop (lines 318-340).  The target is
looked up in the current working set (so it sees fullnames backfilled by
the email loop) while the donors come from the stale pre-loop snapshot. -/
def nameMergeStep (snap : List Rec) (l : List Rec) (n : String) : Option (List Rec) :=
  let i := l.findIdx (fun r => r.fullname == some n)
  match l[i]? with
  | none => none
  | some t =>
    match mergeNameRec t (snap.filter (fun r => r.fullname == some n)) with
    | none => none
    | some t2 => some (l.set i t2)

/-- The whole fullname loop over `unique_names`. -/
def namePass (snap : List Rec) : List String → List Rec → Option (List Rec)
  | [], l => some l
  | n :: ns, l =>
    match nameMergeStep snap l n with
    | none => none
    | some l2 => namePass snap ns l2

/-! ### Final duplicate drop (lines 342-351) -/

/-- `df.drop_duplicates(subset=k)`: keep the first row of each key value;
pandas counts missing keys as equal to each other. -/
def dropDupsAux (key : Rec → Option String) (seen : List (Option String)) :
    List Rec → List Rec
  | [] => []
  | r :: rs =>
    if seen.contains (key r) then dropDupsAux key seen rs
    else r :: dropDupsAux key (key r :: seen) rs

/-- `drop_duplicates` from an empty seen-set. -/
def dropDupsBy (key : Rec → Option String) (l : List Rec) : List Rec :=
  dropDupsAux key [] l

/-- The annotated, sorted working set of lines 268-271. -/
def prepared (input : List Rec) : List Rec := (sortCd input).map withFullname

/-- The deduplication engine, `duplicatesManagement` (lines 257-353).
`none` models an uncaught Python exception.  Note the program order: both
duplicate snapshots are taken from the sorted working set *before* any
merging, both merge loops run on the full working set, and only then are
duplicate rows dropped (first by email, then by fullname; the unassigned
`sort_values` of line 346 has no effect). -/
def duplicatesManagement (input : List Rec) : Option (List Rec) :=
  let df1 := prepared input
  let dupsEmail := dupsBy (fun r => r.email) df1
  let dupsName := dupsBy (fun r => r.fullname) df1
  let uniqueEmails := dedupFirst (dupsEmail.filterMap (fun r => r.email))
  let uniqueNames := dedupFirst (dupsName.filterMap (fun r => r.fullname))
  match emailPass dupsEmail uniqueEmails df1 with
  | none => none
  | some df2 =>
    match namePass dupsName uniqueNames df2 with
    | none => none
    | some df3 =>
      some (dropDupsBy (fun r => r.fullname) (dropDupsBy (fun r => r.email) df3))

/-! ### The phone normalizer `fixPhoneNumber` (lines 192-230)

The function reads the module-level country-codes DataFrame and, before
looking anything up, lowercases and strips its `country` column *in
place* (lines 212-214 assign through an alias of the global).  The model
therefore threads the table explicitly: a call returns the formatted
phone together with the table as it is left behind. -/

/-- One row of the country-codes table (`Dial`, `country`). -/
structure DialRow where
  dial : String
  country : String
deriving DecidableEq, Repr

/-- The in-place column rewrite of lines 213-214. -/
def normDialRow (r : DialRow) : DialRow :=
  { r with country := pyStrip (pyLower r.country) }

/-- `re.sub(r'[^0-9]', '', phone)`. -/
def digitsOf (s : String) : List Char := s.data.filter Char.isDigit

/-- `str(int(phone))` for a non-empty digit string: leading zeros are
removed, an all-zero string becomes `"0"`. -/
def stripZeros (l : List Char) : List Char :=
  match l.dropWhile (fun c => c == '0') with
  | [] => ['0']
  | t => t

/-- The characters `pandas.Series.str.contains` (default `regex=True`)
treats as regular-expression metacharacters:
`.` `^` `$` `*` `+` `?` `\x7b` `\x7d` `[` `]` `\` `|` `(` `)`
(code points 46 94 36 42 43 63 123 125 91 93 92 124 40 41). -/
def regexMeta (c : Char) : Bool :=
  c.toNat == 46 || c.toNat == 94 || c.toNat == 36 || c.toNat == 42 ||
  c.toNat == 43 || c.toNat == 63 || c.toNat == 123 || c.toNat == 125 ||
  c.toNat == 91 || c.toNat == 93 || c.toNat == 92 || c.toNat == 124 ||
  c.toNat == 40 || c.toNat == 41

/-- A pattern free of regex metacharacters: for such a pattern,
`Series.str.contains(pat)` is exactly literal substring containment. -/
def plainPat (s : String) : Bool := !(s.data.any regexMeta)

/-- `fixPhoneNumber(phone, country)` (lines 192-230), with the global
country-codes table passed and returned explicitly.  The column rewrite
of lines 213-214 happens on every call, before any branch, so the second
component is always the normalized table.  The dial-code lookup of line
220, `df_codes['country'].str.contains(country)`, interprets the
normalized input as a *regular expression* (pandas default
`regex=True`).  When that pattern contains no metacharacter the match is
literal substring containment, modelled by `hasSub`, and `.iloc[0]`
takes the first matching row.  When it does contain a metacharacter the
call engages Python's regex engine — matching under regex rules for a
valid pattern (e.g. the parentheses of "Bolivia (Plurinational State
of)" become a group, so the name no longer matches its own table entry)
and raising an uncaught `re.error` for a malformed one; both outcomes
are outside this model and the first component is `none` there. -/
def fixPhoneNumber (phone country : String) (table : List DialRow) :
    Option String × List DialRow :=
  let digits := digitsOf phone
  let c := pyStrip (pyLower country)
  let table2 := table.map normDialRow
  if digits.isEmpty then (some "", table2)
  else if plainPat c then
    let number := stripZeros digits
    let front : String := ⟨number.take (number.length - 6)⟩
    let back : String := ⟨number.drop (number.length - 6)⟩
    match table2.find? (fun r => hasSub r.country c) with
    | some row => (some ("(+" ++ row.dial ++ ") " ++ front ++ " " ++ back), table2)
    | none => (some ("(+" ++ "unknow" ++ ") " ++ front ++ " " ++ back), table2)
  else (none, table2)

/-! ### The timestamp normalizer `formatDateTime` (lines 232-255)

`datetime.fromisoformat` is stdlib, not repository code; it is modelled
on the CPython 3.10 grammar `YYYY-MM-DD[*HH[:MM[:SS[.fff[fff]]]]]` with
an optional `±HH:MM` offset (offset seconds are not modelled; the
pipeline's data never carries an offset).  The eleventh character, when
present, is an arbitrary separator and is ignored, as in CPython. -/

/-- A parsed timestamp (`datetime` / `pandas.Timestamp` value). -/
structure PyDateTime where
  year : Nat
  month : Nat
  day : Nat
  hour : Nat
  minute : Nat
  second : Nat
  usec : Nat
  tzmin : Option Int
deriving DecidableEq, Repr

/-- Numeric value of a decimal digit character, if it is one. -/
def digVal (c : Char) : Option Nat :=
  if c.isDigit then some (c.toNat - 48) else none

/-- Read exactly two digits. -/
def twoDigits : List Char → Option Nat
  | [a, b] => do pure ((← digVal a) * 10 + (← digVal b))
  | _ => none

/-- Read exactly four digits. -/
def fourDigits : List Char → Option Nat
  | [a, b, c, d] => do
    pure ((← digVal a) * 1000 + (← digVal b) * 100 + (← digVal c) * 10 + (← digVal d))
  | _ => none

/-- Gregorian leap-year test. -/
def isLeap (y : Nat) : Bool := y % 4 == 0 && (y % 100 != 0 || y % 400 == 0)

/-- Days in a month, as validated by the `datetime` constructor. -/
def daysInMonth (y m : Nat) : Nat :=
  if m == 2 then (if isLeap y then 29 else 28)
  else if m == 4 || m == 6 || m == 9 || m == 11 then 30
  else 31

/-- Parse the `HH[:MM[:SS[.fff[fff]]]]` part of an ISO time. -/
def parseHMS : List Char → Option (Nat × Nat × Nat × Nat)
  | [h1, h2] => do pure (← twoDigits [h1, h2], 0, 0, 0)
  | [h1, h2, ':', m1, m2] => do
    pure (← twoDigits [h1, h2], ← twoDigits [m1, m2], 0, 0)
  | [h1, h2, ':', m1, m2, ':', s1, s2] => do
    pure (← twoDigits [h1, h2], ← twoDigits [m1, m2], ← twoDigits [s1, s2], 0)
  | [h1, h2, ':', m1, m2, ':', s1, s2, '.', f1, f2, f3] => do
    pure (← twoDigits [h1, h2], ← twoDigits [m1, m2], ← twoDigits [s1, s2],
      ((← digVal f1) * 100 + (← digVal f2) * 10 + (← digVal f3)) * 1000)
  | [h1, h2, ':', m1, m2, ':', s1, s2, '.', f1, f2, f3, f4, f5, f6] => do
    pure (← twoDigits [h1, h2], ← twoDigits [m1, m2], ← twoDigits [s1, s2],
      (← digVal f1) * 100000 + (← digVal f2) * 10000 + (← digVal f3) * 1000 +
        (← digVal f4) * 100 + (← digVal f5) * 10 + (← digVal f6))
  | _ => none

/-- Split a time string at the first `'+'` or `'-'` (the offset sign). -/
def splitTz (l : List Char) : List Char × Option (Bool × List Char) :=
  match l with
  | [] => ([], none)
  | c :: rest =>
    if c == '+' then ([], some (true, rest))
    else if c == '-' then ([], some (false, rest))
    else
      let r := splitTz rest
      (c :: r.1, r.2)

/-- Parse the time-of-day (and optional offset) part. -/
def parseTimePart (l : List Char) : Option (Nat × Nat × Nat × Nat × Option Int) := do
  let (tpart, tz) := splitTz l
  let (h, m, s, f) ← parseHMS tpart
  if h ≤ 23 ∧ m ≤ 59 ∧ s ≤ 59 then
    match tz with
    | none => pure (h, m, s, f, none)
    | some (sign, [o1, o2, ':', o3, o4]) => do
      let oh ← twoDigits [o1, o2]
      let om ← twoDigits [o3, o4]
      let total := oh * 60 + om
      if total < 1440 then
        pure (h, m, s, f, some (if sign then (total : Int) else -(total : Int)))
      else none
    | some _ => none
  else none

/-- `datetime.fromisoformat` on the char list of the input. -/
def fromIsoChars : List Char → Option PyDateTime
  | y1 :: y2 :: y3 :: y4 :: '-' :: m1 :: m2 :: '-' :: d1 :: d2 :: rest => do
    let y ← fourDigits [y1, y2, y3, y4]
    let mo ← twoDigits [m1, m2]
    let d ← twoDigits [d1, d2]
    if 1 ≤ y ∧ 1 ≤ mo ∧ mo ≤ 12 ∧ 1 ≤ d ∧ d ≤ daysInMonth y mo then
      match rest with
      | [] => pure ⟨y, mo, d, 0, 0, 0, 0, none⟩
      | [_] => pure ⟨y, mo, d, 0, 0, 0, 0, none⟩
      | _ :: t => do
        let (h, m, s, f, tz) ← parseTimePart t
        pure ⟨y, mo, d, h, m, s, f, tz⟩
    else none
  | _ => none

/-- `datetime.fromisoformat` (modelled from the CPython 3.10 grammar). -/
def pyFromIso (s : String) : Option PyDateTime := fromIsoChars s.data

/-- A Python value as classified by `formatDateTime`'s `isinstance`
tests: a string, a `pandas.Timestamp`, or anything else. -/
inductive PyVal where
  | pstr (s : String)
  | pts (t : PyDateTime)
  | pother
deriving DecidableEq, Repr

/-- `formatDateTime` (lines 232-255): strings lose their final character
(`date[:-1]`) before being handed to `fromisoformat` with `ValueError`
caught, timestamps pass through, anything else yields `None`. -/
def formatDateTime : PyVal → Option PyDateTime
  | .pstr s => pyFromIso ⟨s.data.dropLast⟩
  | .pts t => some t
  | .pother => none

/-! ### Order facts about the sort key -/

theorem cdLE_total (x y : Option Int) : cdLE x y = true ∨ cdLE y x = true := by
  rcases x with _ | a <;> rcases y with _ | b <;> simp [cdLE] <;> omega

theorem cdLE_trans {x y z : Option Int} (h1 : cdLE x y = true) (h2 : cdLE y z = true) :
    cdLE x z = true := by
  rcases x with _ | a <;> rcases y with _ | b <;> rcases z with _ | c <;>
    simp [cdLE] at * <;> omega

theorem cdLE_of_eq {x y : Option Int} (h : x = y) : cdLE x y = true := by
  subst h; rcases x with _ | a <;> simp [cdLE]

instance : IsTotal Rec recLE := ⟨fun a b => cdLE_total a.createdate b.createdate⟩

instance : IsTrans Rec recLE := ⟨fun _ _ _ => cdLE_trans⟩

/-! ### Facts about the sort of line 268 -/

theorem sortCd_perm (l : List Rec) : List.Perm (sortCd l) l :=
  List.perm_insertionSort recLE l

theorem sortCd_sorted (l : List Rec) : (sortCd l).Sorted recLE :=
  List.sorted_insertionSort recLE l

theorem sortCd_eq_self {l : List Rec} (h : l.Sorted recLE) : sortCd l = l :=
  h.insertionSort_eq

/-- Inserting into a sorted list commutes with filtering on a fixed
`createdate` value: the new row lands in front of the rows sharing its
timestamp and does not disturb the rest. -/
theorem filter_orderedInsert_cd (v : Option Int) (r : Rec) :
    ∀ {l : List Rec}, l.Sorted recLE →
      (List.orderedInsert recLE r l).filter (fun x => x.createdate == v) =
        (if r.createdate == v then
          r :: l.filter (fun x => x.createdate == v)
        else l.filter (fun x => x.createdate == v))
  | [], _ => by
    simp only [List.orderedInsert, List.filter]
    split <;> rename_i hq <;> simp [hq]
  | b :: t, hs => by
    simp only [List.orderedInsert]
    by_cases hrb : recLE r b
    · simp only [if_pos hrb, List.filter]
      split <;> rename_i hq <;> simp [hq]
    · simp only [if_neg hrb]
      have ht : t.Sorted recLE := hs.of_cons
      have ih := filter_orderedInsert_cd v r ht
      by_cases hq : (r.createdate == v) = true
      · have hqb : (b.createdate == v) = false := by
          by_contra hb
          have hb' : (b.createdate == v) = true := by
            revert hb; cases (b.createdate == v) <;> simp
          have : recLE r b := by
            have h1 : r.createdate = v := by simpa using hq
            have h2 : b.createdate = v := by simpa using hb'
            exact cdLE_of_eq (h1.trans h2.symm)
          exact hrb this
        simp only [List.filter, hqb, if_pos hq] at *
        simp [ih, hq]
      · have hq' : (r.createdate == v) = false := by
          revert hq; cases (r.createdate == v) <;> simp
        simp only [List.filter, if_neg hq] at *
        cases hb : (b.createdate == v) <;> simp [hb, ih, hq']

/-- Stability of the sort: for each fixed `createdate` value, rows
carrying it appear in the sorted output in their original input order. -/
theorem sortCd_stable (l : List Rec) (v : Option Int) :
    (sortCd l).filter (fun x => x.createdate == v) =
      l.filter (fun x => x.createdate == v) := by
  induction l with
  | nil => rfl
  | cons a t ih =>
    have hstep : sortCd (a :: t) = List.orderedInsert recLE a (sortCd t) := rfl
    rw [hstep, filter_orderedInsert_cd v a (sortCd_sorted t)]
    by_cases hq : (a.createdate == v) = true
    · simp [List.filter, hq, ih]
    · have hq' : (a.createdate == v) = false := by
        revert hq; cases (a.createdate == v) <;> simp
      simp [List.filter, hq', ih]

/-- Two sorted rearrangements of the same rows that agree on the order
of the absent-timestamp rows coincide when the present timestamps are
pairwise distinct. -/
theorem sorted_eq_of_perm :
    ∀ (l₁ l₂ : List Rec), List.Perm l₁ l₂ → l₁.Sorted recLE → l₂.Sorted recLE →
      l₁.filter (fun r => r.createdate == none) =
        l₂.filter (fun r => r.createdate == none) →
      (l₁.filterMap (fun r => r.createdate)).Nodup →
      l₁ = l₂
  | [], l₂, hperm, _, _, _, _ => hperm.nil_eq
  | a :: t₁, l₂, hperm, hs₁, hs₂, hnone, hdist => by
    cases l₂ with
    | nil =>
      have := hperm.length_eq
      simp at this
    | cons b t₂ =>
      cases hca : a.createdate with
      | none =>
        have hall₁ : ∀ r ∈ a :: t₁, r.createdate = none := by
          intro r hr
          rcases List.mem_cons.mp hr with h | hr'
          · rw [h, hca]
          · cases hcr : r.createdate with
            | none => rfl
            | some y =>
              have h2 : cdLE a.createdate r.createdate = true :=
                List.rel_of_sorted_cons hs₁ r hr'
              rw [hca, hcr] at h2
              simp [cdLE] at h2
        have hall₂ : ∀ r ∈ b :: t₂, r.createdate = none := fun r hr =>
          hall₁ r (hperm.symm.subset hr)
        calc a :: t₁
            = (a :: t₁).filter (fun r => r.createdate == none) :=
              (List.filter_eq_self.mpr (fun r hr => by simp [hall₁ r hr])).symm
          _ = (b :: t₂).filter (fun r => r.createdate == none) := hnone
          _ = b :: t₂ :=
              List.filter_eq_self.mpr (fun r hr => by simp [hall₂ r hr])
      | some x =>
        have hab : a = b := by
          by_contra hne
          have ha2 : a ∈ t₂ := by
            rcases List.mem_cons.mp (hperm.subset (List.mem_cons_self a t₁))
              with h | h
            · exact absurd h hne
            · exact h
          have hba : cdLE b.createdate a.createdate = true :=
            List.rel_of_sorted_cons hs₂ a ha2
          cases hcb : b.createdate with
          | none =>
            rw [hcb, hca] at hba
            simp [cdLE] at hba
          | some y =>
            have hb1 : b ∈ t₁ := by
              rcases List.mem_cons.mp (hperm.symm.subset
                (List.mem_cons_self b t₂)) with h | h
              · exact absurd h.symm hne
              · exact h
            have hab' : cdLE a.createdate b.createdate = true :=
              List.rel_of_sorted_cons hs₁ b hb1
            rw [hca, hcb] at hab'
            rw [hcb, hca] at hba
            have hxy : x = y := by
              simp [cdLE] at hab' hba
              omega
            have hnodup : (x :: t₁.filterMap (fun r => r.createdate)).Nodup := by
              simpa [List.filterMap_cons, hca] using hdist
            have hxin : x ∈ t₁.filterMap (fun r => r.createdate) := by
              refine List.mem_filterMap.mpr ⟨b, hb1, ?_⟩
              rw [hcb, hxy]
            exact (List.nodup_cons.mp hnodup).1 hxin
        subst hab
        have hperm' := hperm.cons_inv
        have ht₁ : t₁.Sorted recLE := hs₁.of_cons
        have ht₂ : t₂.Sorted recLE := hs₂.of_cons
        have hnone' : t₁.filter (fun r => r.createdate == none) =
            t₂.filter (fun r => r.createdate == none) := by
          have hqa : (a.createdate == none) = false := by
            rw [hca]; rfl
          simpa only [List.filter, hqa] using hnone
        have hdist' : (t₁.filterMap (fun r => r.createdate)).Nodup := by
          have hnodup : (x :: t₁.filterMap (fun r => r.createdate)).Nodup := by
            simpa [List.filterMap_cons, hca] using hdist
          exact (List.nodup_cons.mp hnodup).2
        rw [sorted_eq_of_perm t₁ t₂ hperm' ht₁ ht₂ hnone' hdist']

/-- Claim C5 (code_bug).  The specification requires the sort of line
268 to be stable, but the code's `sort_values` call uses the default
`kind='quicksort'` — numpy's introsort — which reorders tied keys above
its 16-element insertion-sort cutoff (pandas documents only
mergesort/stable as stable), so the claimed preservation of input order
among equal timestamps does not hold of the program in general.  This
theorem delimits the sound scope: whenever the present `createdate`
values are pairwise distinct, any rearrangement that is
descending-sorted with the absent-timestamp rows kept in input order —
everything the sorting contract and pandas' missing-key handling
guarantee, for every kind — equals the reference sort `sortCd`, so
there (and only there, apart from sub-cutoff frames) the code realizes
the claimed order and the survivor selection built on it. -/
theorem sortCd_eq_of_sorted_perm (l' input : List Rec)
    (hperm : List.Perm l' input) (hsort : l'.Sorted recLE)
    (hnone : l'.filter (fun r => r.createdate == none) =
      input.filter (fun r => r.createdate == none))
    (hdist : (input.filterMap (fun r => r.createdate)).Nodup) :
    l' = sortCd input :=
  sorted_eq_of_perm l' (sortCd input)
    (hperm.trans (sortCd_perm input).symm) hsort (sortCd_sorted input)
    (hnone.trans (sortCd_stable input none).symm)
    ((List.Perm.filterMap _ hperm).nodup_iff.mpr hdist)

/-- Witness for C5's theorem at a concrete input. -/
theorem c5_witness :
    [({ createdate := some 2 } : Rec), { createdate := some 1 }] =
      sortCd [({ createdate := some 1 } : Rec), { createdate := some 2 }] :=
  sortCd_eq_of_sorted_perm
    [({ createdate := some 2 } : Rec), { createdate := some 1 }]
    [({ createdate := some 1 } : Rec), { createdate := some 2 }]
    (by decide) (by decide) (by decide) (by decide)

/-! ### `findIdx` and first-match facts -/

/-- `df[df[k] == v].index[0]` seen two ways: indexing at `findIdx` is the
head of the filtered list. -/
theorem getElem?_findIdx {α : Type} (p : α → Bool) :
    ∀ l : List α, l[l.findIdx p]? = (l.filter p).head?
  | [] => rfl
  | a :: t => by
    by_cases hp : p a
    · simp [List.findIdx_cons, hp, List.filter]
    · have hp' : p a = false := by revert hp; cases p a <;> simp
      simp [List.findIdx_cons, hp', List.filter, List.getElem?_cons_succ,
        getElem?_findIdx p t]

/-- The row found at `findIdx` satisfies the predicate. -/
theorem findIdx_found {α : Type} {p : α → Bool} {l : List α} {t : α}
    (h : l[l.findIdx p]? = some t) : p t = true := by
  rw [getElem?_findIdx] at h
  have : t ∈ l.filter p := List.mem_of_mem_head? h
  exact (List.mem_filter.mp this).2

/-- Special case of `findIdx_found` for a key column selection. -/
theorem findIdx_key_found {f : Rec → Option String} {l : List Rec} {v : Option String}
    {t : Rec} (h : l[l.findIdx (fun r => f r == v)]? = some t) : f t = v := by
  have hmem : t ∈ l.filter (fun r => f r == v) := by
    rw [getElem?_findIdx] at h
    exact List.mem_of_mem_head? h
  simpa using (List.mem_filter.mp hmem).2

/-- `findIdx` on an email/fullname test only depends on the key column. -/
theorem findIdx_key_congr {l l' : List Rec} (f : Rec → Option String)
    (hm : l'.map f = l.map f) (v : Option String) :
    l'.findIdx (fun r => f r == v) = l.findIdx (fun r => f r == v) := by
  induction l generalizing l' with
  | nil =>
    have : l' = [] := by
      cases l' with
      | nil => rfl
      | cons a t => simp at hm
    simp [this]
  | cons a t ih =>
    cases l' with
    | nil => simp at hm
    | cons a' t' =>
      simp only [List.map_cons, List.cons.injEq] at hm
      rw [List.findIdx_cons, List.findIdx_cons, hm.1, ih hm.2]

/-! ### Facts about `dedupFirst`, `dropDupsBy`, `dupsBy` -/

theorem contains_iff_mem {α : Type} [BEq α] [LawfulBEq α] (l : List α) (a : α) :
    l.contains a = true ↔ a ∈ l := by
  simp [List.contains]

theorem dedupFirstAux_spec :
    ∀ (l seen : List String),
      (dedupFirstAux seen l).Nodup ∧ ∀ x ∈ dedupFirstAux seen l, x ∈ l ∧ x ∉ seen
  | [], _ => by simp [dedupFirstAux]
  | x :: xs, seen => by
    by_cases hc : seen.contains x = true
    · have ih := dedupFirstAux_spec xs seen
      simp only [dedupFirstAux, if_pos hc]
      exact ⟨ih.1, fun y hy => ⟨List.mem_cons_of_mem x (ih.2 y hy).1, (ih.2 y hy).2⟩⟩
    · have ih := dedupFirstAux_spec xs (x :: seen)
      have hx : x ∉ seen := fun h => hc ((contains_iff_mem seen x).mpr h)
      simp only [dedupFirstAux, if_neg hc]
      constructor
      · exact List.nodup_cons.mpr
          ⟨fun h => (ih.2 x h).2 (List.mem_cons_self x seen), ih.1⟩
      · intro y hy
        rcases List.mem_cons.mp hy with h | h
        · exact ⟨h ▸ List.mem_cons_self x xs, h ▸ hx⟩
        · exact ⟨List.mem_cons_of_mem x (ih.2 y h).1,
            fun hs => (ih.2 y h).2 (List.mem_cons_of_mem x hs)⟩

theorem dedupFirst_nodup (l : List String) : (dedupFirst l).Nodup :=
  (dedupFirstAux_spec l []).1

theorem dedupFirst_sub {l : List String} {x : String} (h : x ∈ dedupFirst l) : x ∈ l :=
  ((dedupFirstAux_spec l []).2 x h).1

theorem dropDupsAux_sublist (key : Rec → Option String) :
    ∀ (l : List Rec) (seen : List (Option String)),
      (dropDupsAux key seen l).Sublist l
  | [], _ => List.Sublist.refl []
  | r :: rs, seen => by
    by_cases hc : seen.contains (key r) = true
    · simp only [dropDupsAux, if_pos hc]
      exact (dropDupsAux_sublist key rs seen).cons r
    · simp only [dropDupsAux, if_neg hc]
      exact (dropDupsAux_sublist key rs (key r :: seen)).cons₂ r

theorem dropDupsBy_sublist (key : Rec → Option String) (l : List Rec) :
    (dropDupsBy key l).Sublist l :=
  dropDupsAux_sublist key l []

theorem dropDupsAux_keys (key : Rec → Option String) :
    ∀ (l : List Rec) (seen : List (Option String)),
      ((dropDupsAux key seen l).map key).Nodup ∧
        ∀ v ∈ (dropDupsAux key seen l).map key, v ∉ seen
  | [], _ => by simp [dropDupsAux]
  | r :: rs, seen => by
    by_cases hc : seen.contains (key r) = true
    · have ih := dropDupsAux_keys key rs seen
      simp only [dropDupsAux, if_pos hc]
      exact ih
    · have ih := dropDupsAux_keys key rs (key r :: seen)
      have hx : key r ∉ seen := fun h => hc ((contains_iff_mem _ _).mpr h)
      simp only [dropDupsAux, if_neg hc, List.map_cons]
      constructor
      · exact List.nodup_cons.mpr
          ⟨fun h => (ih.2 (key r) h) (List.mem_cons_self _ _), ih.1⟩
      · intro v hv
        rcases List.mem_cons.mp hv with h | h
        · exact h ▸ hx
        · exact fun hs => (ih.2 v h) (List.mem_cons_of_mem _ hs)

theorem dropDupsBy_keys_nodup (key : Rec → Option String) (l : List Rec) :
    ((dropDupsBy key l).map key).Nodup :=
  (dropDupsAux_keys key l []).1

theorem dropDupsAux_eq_self (key : Rec → Option String) :
    ∀ (l : List Rec) (seen : List (Option String)),
      (l.map key).Nodup → (∀ v ∈ l.map key, v ∉ seen) →
      dropDupsAux key seen l = l
  | [], _, _, _ => rfl
  | r :: rs, seen, hn, hs => by
    have hc : ¬ seen.contains (key r) = true := fun h =>
      hs (key r) (List.mem_cons_self _ _) ((contains_iff_mem _ _).mp h)
    simp only [dropDupsAux, if_neg hc]
    have hn' : (∀ x ∈ rs, ¬ key x = key r) ∧ (List.map key rs).Nodup := by
      simpa using hn
    have : dropDupsAux key (key r :: seen) rs = rs := by
      refine dropDupsAux_eq_self key rs (key r :: seen) hn'.2 ?_
      intro v hv hmem
      rcases List.mem_cons.mp hmem with h | h
      · obtain ⟨x, hx, hkx⟩ := List.mem_map.mp hv
        exact hn'.1 x hx (hkx.trans h)
      · exact hs v (List.mem_cons_of_mem _ hv) h
    rw [this]

theorem dropDupsBy_eq_self {key : Rec → Option String} {l : List Rec}
    (h : (l.map key).Nodup) : dropDupsBy key l = l :=
  dropDupsAux_eq_self key l [] h (by simp)

theorem countKey_le_one_of_nodup {key : Rec → Option String} :
    ∀ {l : List Rec}, (l.map key).Nodup → ∀ v, countKey key l v ≤ 1 := by
  intro l
  induction l with
  | nil => intro _ v; simp [countKey]
  | cons a t ih =>
    intro hn v
    have hn' : (∀ x ∈ t, ¬ key x = key a) ∧ (List.map key t).Nodup := by
      simpa using hn
    by_cases ha : (key a == v) = true
    · have hv : key a = v := by simpa using ha
      have ht : countKey key t v = 0 := by
        simp only [countKey, List.length_eq_zero]
        rw [List.filter_eq_nil]
        intro r hr hkr
        have hrv : key r = v := by simpa using hkr
        exact hn'.1 r hr (hrv.trans hv.symm)
      simp only [countKey, List.filter, ha, List.length_cons]
      have : (List.filter (fun r => key r == v) t).length = 0 := ht
      omega
    · have ha' : (key a == v) = false := by revert ha; cases (key a == v) <;> simp
      simp only [countKey, List.filter, ha']
      exact ih hn'.2 v

theorem mem_dupsBy {key : Rec → Option String} {l : List Rec} {r : Rec} :
    r ∈ dupsBy key l ↔
      r ∈ l ∧ (key r).isSome = true ∧ 2 ≤ countKey key l (key r) := by
  simp [dupsBy, List.mem_filter, and_assoc]

theorem dupsBy_eq_nil_of_nodup {key : Rec → Option String} {l : List Rec}
    (h : (l.map key).Nodup) : dupsBy key l = [] := by
  rw [dupsBy, List.filter_eq_nil]
  intro r hr
  have := countKey_le_one_of_nodup h (key r)
  simp only [Bool.and_eq_true, decide_eq_true_eq, not_and]
  omega

/-! ### Generic update helpers -/

theorem set_of_getElem? {α : Type} {l : List α} {i : Nat} {a : α}
    (h : l[i]? = some a) : l.set i a = l := by
  apply List.ext_getElem?
  intro j
  rw [List.getElem?_set]
  by_cases hij : i = j
  · subst hij
    obtain ⟨hlt, _⟩ := List.getElem?_eq_some_iff.mp h
    simp [hlt, h.symm]
  · simp [hij]

theorem map_set_eq_of_field {β : Type} {f : Rec → β} {l : List Rec} {i : Nat}
    {t t2 : Rec} (hget : l[i]? = some t) (hf : f t2 = f t) :
    (l.set i t2).map f = l.map f := by
  rw [List.map_set, hf]
  apply set_of_getElem?
  rw [List.getElem?_map, hget]
  rfl

theorem mem_of_getElem? {α : Type} {l : List α} {i : Nat} {a : α}
    (h : l[i]? = some a) : a ∈ l := by
  obtain ⟨hlt, he⟩ := List.getElem?_eq_some_iff.mp h
  exact he ▸ List.getElem_mem hlt

/-- Sortedness only depends on the `createdate` column. -/
theorem sorted_of_cd_map_eq {l l' : List Rec}
    (hm : l'.map (fun r => r.createdate) = l.map (fun r => r.createdate))
    (h : l.Sorted recLE) : l'.Sorted recLE := by
  have key : ∀ m : List Rec, m.Sorted recLE ↔
      List.Pairwise (fun x y : Option Int => cdLE x y = true)
        (m.map (fun r => r.createdate)) := by
    intro m
    rw [List.pairwise_map]
    exact Iff.rfl
  rw [key] at h ⊢
  rw [hm]
  exact h

/-! ### Field preservation of the merge bodies -/

theorem mergeEmailRec_fields {t t2 : Rec} {donors : List Rec}
    (h : mergeEmailRec t donors = some t2) :
    t2.email = t.email ∧ t2.createdate = t.createdate ∧
      t2.firstname = t.firstname ∧ t2.lastname = t.lastname ∧
      (t.fullname.isSome = true → t2.fullname = t.fullname) := by
  cases hind : t.original_industry with
  | none => simp [mergeEmailRec, hind] at h
  | some ind =>
    simp only [mergeEmailRec, hind, Option.some.injEq] at h
    subst h
    refine ⟨rfl, rfl, rfl, rfl, ?_⟩
    intro hsome
    obtain ⟨v, hv⟩ := Option.isSome_iff_exists.mp hsome
    simp [hv, bf]

theorem mergeNameRec_fields {t t2 : Rec} {donors : List Rec}
    (h : mergeNameRec t donors = some t2) :
    t2.fullname = t.fullname ∧ t2.createdate = t.createdate ∧
      t2.firstname = t.firstname ∧ t2.lastname = t.lastname ∧
      (t.email.isSome = true → t2.email = t.email) := by
  cases hind : t.original_industry with
  | none => simp [mergeNameRec, hind] at h
  | some ind =>
    simp only [mergeNameRec, hind, Option.some.injEq] at h
    subst h
    refine ⟨rfl, rfl, rfl, rfl, ?_⟩
    intro hsome
    obtain ⟨v, hv⟩ := Option.isSome_iff_exists.mp hsome
    simp [hv, bf]

/-! ### What one email loop run does to the working set -/

/-- Full characterisation of the email loop (lines 292-315): lengths and
the email/createdate/name columns are preserved (fullname too when every
row has one), rows that are no group's merge target are untouched, and
for each distinct processed email the target row — the first row bearing
it — is replaced by the merge of its old value with the snapshot group. -/
theorem emailPass_spec (snap : List Rec) :
    ∀ (es : List String) (l lf : List Rec), emailPass snap es l = some lf →
      lf.length = l.length ∧
      lf.map (fun r => r.email) = l.map (fun r => r.email) ∧
      lf.map (fun r => r.createdate) = l.map (fun r => r.createdate) ∧
      lf.map (fun r => r.firstname) = l.map (fun r => r.firstname) ∧
      lf.map (fun r => r.lastname) = l.map (fun r => r.lastname) ∧
      ((∀ a ∈ l, a.fullname.isSome = true) →
        lf.map (fun r => r.fullname) = l.map (fun r => r.fullname)) ∧
      (∀ j, (∀ e ∈ es, l.findIdx (fun r => r.email == some e) ≠ j) →
        lf[j]? = l[j]?) ∧
      (es.Nodup → ∀ e ∈ es,
        ∃ t, l[l.findIdx (fun r => r.email == some e)]? = some t ∧
          lf[l.findIdx (fun r => r.email == some e)]? =
            mergeEmailRec t (snap.filter (fun r => r.email == some e)))
  | [], l, lf, hrun => by
    obtain rfl : l = lf := Option.some.inj hrun
    exact ⟨rfl, rfl, rfl, rfl, rfl, fun _ => rfl, fun _ _ => rfl,
      fun _ e he => absurd he (List.not_mem_nil e)⟩
  | e :: es, l, lf, hrun => by
    rw [emailPass] at hrun
    split at hrun
    · exact absurd hrun (by simp)
    · rename_i l2 hstep
      rw [emailMergeStep] at hstep
      split at hstep
      · exact absurd hstep (by simp)
      · rename_i t hget
        split at hstep
        · exact absurd hstep (by simp)
        · rename_i t2 hmerge
          obtain rfl : l.set (l.findIdx (fun r => r.email == some e)) t2 = l2 :=
            Option.some.inj hstep
          have hf := mergeEmailRec_fields hmerge
          have hlt : l.findIdx (fun r => r.email == some e) < l.length :=
            (List.getElem?_eq_some_iff.mp hget).1
          have hmail : (l.set (l.findIdx (fun r => r.email == some e)) t2).map
              (fun r => r.email) = l.map (fun r => r.email) :=
            map_set_eq_of_field hget hf.1
          have hmcd : (l.set (l.findIdx (fun r => r.email == some e)) t2).map
              (fun r => r.createdate) = l.map (fun r => r.createdate) :=
            map_set_eq_of_field hget hf.2.1
          have hmfn : (l.set (l.findIdx (fun r => r.email == some e)) t2).map
              (fun r => r.firstname) = l.map (fun r => r.firstname) :=
            map_set_eq_of_field hget hf.2.2.1
          have hmln : (l.set (l.findIdx (fun r => r.email == some e)) t2).map
              (fun r => r.lastname) = l.map (fun r => r.lastname) :=
            map_set_eq_of_field hget hf.2.2.2.1
          have hidx : ∀ e' : String,
              (l.set (l.findIdx (fun r => r.email == some e)) t2).findIdx
                  (fun r => r.email == some e') =
                l.findIdx (fun r => r.email == some e') :=
            fun e' => findIdx_key_congr (fun r => r.email) hmail (some e')
          have ih := emailPass_spec snap es
            (l.set (l.findIdx (fun r => r.email == some e)) t2) lf hrun
          have hlen : lf.length = l.length := by
            rw [ih.1, List.length_set]
          refine ⟨hlen, ih.2.1.trans hmail, ih.2.2.1.trans hmcd,
            ih.2.2.2.1.trans hmfn, ih.2.2.2.2.1.trans hmln, ?_, ?_, ?_⟩
          · intro hall
            have hall2 : ∀ a ∈ l.set (l.findIdx (fun r => r.email == some e)) t2,
                a.fullname.isSome = true := by
              intro a ha
              rcases List.mem_or_eq_of_mem_set ha with h | h
              · exact hall a h
              · subst h
                rw [hf.2.2.2.2 (hall t (mem_of_getElem? hget))]
                exact hall t (mem_of_getElem? hget)
            have hmfull : (l.set (l.findIdx (fun r => r.email == some e)) t2).map
                (fun r => r.fullname) = l.map (fun r => r.fullname) :=
              map_set_eq_of_field hget (hf.2.2.2.2 (hall t (mem_of_getElem? hget)))
            exact (ih.2.2.2.2.2.1 hall2).trans hmfull
          · intro j hj
            have h1 : lf[j]? =
                (l.set (l.findIdx (fun r => r.email == some e)) t2)[j]? := by
              refine ih.2.2.2.2.2.2.1 j ?_
              intro e' he'
              rw [hidx e']
              exact hj e' (List.mem_cons_of_mem e he')
            have h2 : (l.set (l.findIdx (fun r => r.email == some e)) t2)[j]? =
                l[j]? :=
              List.getElem?_set_ne (hj e (List.mem_cons_self e es))
            exact h1.trans h2
          · intro hnd e' he'
            have hnd' : e ∉ es ∧ es.Nodup := List.nodup_cons.mp hnd
            have hte : t.email = some e := findIdx_key_found hget
            rcases List.mem_cons.mp he' with heq | hmem
            · subst heq
              refine ⟨t, hget, ?_⟩
              have huntouched : lf[l.findIdx (fun r => r.email == some e')]? =
                  (l.set (l.findIdx (fun r => r.email == some e')) t2)[
                    l.findIdx (fun r => r.email == some e')]? := by
                refine ih.2.2.2.2.2.2.1 _ ?_
                intro e2 he2 heqi
                rw [hidx e2] at heqi
                have hget2 : l[l.findIdx (fun r => r.email == some e2)]? = some t := by
                  rw [heqi]; exact hget
                have he2e : e2 = e' := by
                  have h1 : t.email = some e2 := findIdx_key_found hget2
                  have := h1.symm.trans hte
                  simpa using this
                exact hnd'.1 (he2e ▸ he2)
              rw [huntouched, List.getElem?_set_eq hlt, hmerge]
            · obtain ⟨t', ht'get, ht'merge⟩ := ih.2.2.2.2.2.2.2 hnd'.2 e' hmem
              have hte' : t'.email = some e' := findIdx_key_found ht'get
              rw [hidx e'] at ht'get ht'merge
              have hne : l.findIdx (fun r => r.email == some e') ≠
                  l.findIdx (fun r => r.email == some e) := by
                intro heq
                rw [heq] at ht'get
                have hg3 : (l.set (l.findIdx (fun r => r.email == some e)) t2)[
                    l.findIdx (fun r => r.email == some e)]? = some t2 :=
                  List.getElem?_set_eq hlt
                have ht2 : t' = t2 := Option.some.inj (ht'get.symm.trans hg3)
                rw [ht2, hf.1, hte] at hte'
                refine hnd'.1 ?_
                rw [Option.some.inj hte']
                exact hmem
              exact ⟨t', ((List.getElem?_set_ne hne.symm).symm.trans ht'get),
                ht'merge⟩

/-- Full characterisation of the fullname loop (lines 318-340), the
analogue of `emailPass_spec`; here the fullname column is preserved
outright, since the loop backfills `email` instead. -/
theorem namePass_spec (snap : List Rec) :
    ∀ (ns : List String) (l lf : List Rec), namePass snap ns l = some lf →
      lf.length = l.length ∧
      lf.map (fun r => r.fullname) = l.map (fun r => r.fullname) ∧
      lf.map (fun r => r.createdate) = l.map (fun r => r.createdate) ∧
      lf.map (fun r => r.firstname) = l.map (fun r => r.firstname) ∧
      lf.map (fun r => r.lastname) = l.map (fun r => r.lastname) ∧
      (∀ j, (∀ n ∈ ns, l.findIdx (fun r => r.fullname == some n) ≠ j) →
        lf[j]? = l[j]?) ∧
      (ns.Nodup → ∀ n ∈ ns,
        ∃ t, l[l.findIdx (fun r => r.fullname == some n)]? = some t ∧
          lf[l.findIdx (fun r => r.fullname == some n)]? =
            mergeNameRec t (snap.filter (fun r => r.fullname == some n)))
  | [], l, lf, hrun => by
    obtain rfl : l = lf := Option.some.inj hrun
    exact ⟨rfl, rfl, rfl, rfl, rfl, fun _ _ => rfl,
      fun _ n hn => absurd hn (List.not_mem_nil n)⟩
  | n :: ns, l, lf, hrun => by
    rw [namePass] at hrun
    split at hrun
    · exact absurd hrun (by simp)
    · rename_i l2 hstep
      rw [nameMergeStep] at hstep
      split at hstep
      · exact absurd hstep (by simp)
      · rename_i t hget
        split at hstep
        · exact absurd hstep (by simp)
        · rename_i t2 hmerge
          obtain rfl : l.set (l.findIdx (fun r => r.fullname == some n)) t2 = l2 :=
            Option.some.inj hstep
          have hf := mergeNameRec_fields hmerge
          have hlt : l.findIdx (fun r => r.fullname == some n) < l.length :=
            (List.getElem?_eq_some_iff.mp hget).1
          have hmfull : (l.set (l.findIdx (fun r => r.fullname == some n)) t2).map
              (fun r => r.fullname) = l.map (fun r => r.fullname) :=
            map_set_eq_of_field hget hf.1
          have hmcd : (l.set (l.findIdx (fun r => r.fullname == some n)) t2).map
              (fun r => r.createdate) = l.map (fun r => r.createdate) :=
            map_set_eq_of_field hget hf.2.1
          have hmfn : (l.set (l.findIdx (fun r => r.fullname == some n)) t2).map
              (fun r => r.firstname) = l.map (fun r => r.firstname) :=
            map_set_eq_of_field hget hf.2.2.1
          have hmln : (l.set (l.findIdx (fun r => r.fullname == some n)) t2).map
              (fun r => r.lastname) = l.map (fun r => r.lastname) :=
            map_set_eq_of_field hget hf.2.2.2.1
          have hidx : ∀ n' : String,
              (l.set (l.findIdx (fun r => r.fullname == some n)) t2).findIdx
                  (fun r => r.fullname == some n') =
                l.findIdx (fun r => r.fullname == some n') :=
            fun n' => findIdx_key_congr (fun r => r.fullname) hmfull (some n')
          have ih := namePass_spec snap ns
            (l.set (l.findIdx (fun r => r.fullname == some n)) t2) lf hrun
          have hlen : lf.length = l.length := by
            rw [ih.1, List.length_set]
          refine ⟨hlen, ih.2.1.trans hmfull, ih.2.2.1.trans hmcd,
            ih.2.2.2.1.trans hmfn, ih.2.2.2.2.1.trans hmln, ?_, ?_⟩
          · intro j hj
            have h1 : lf[j]? =
                (l.set (l.findIdx (fun r => r.fullname == some n)) t2)[j]? := by
              refine ih.2.2.2.2.2.1 j ?_
              intro n' hn'
              rw [hidx n']
              exact hj n' (List.mem_cons_of_mem n hn')
            have h2 : (l.set (l.findIdx (fun r => r.fullname == some n)) t2)[j]? =
                l[j]? :=
              List.getElem?_set_ne (hj n (List.mem_cons_self n ns))
            exact h1.trans h2
          · intro hnd n' hn'
            have hnd' : n ∉ ns ∧ ns.Nodup := List.nodup_cons.mp hnd
            have hte : t.fullname = some n := findIdx_key_found hget
            rcases List.mem_cons.mp hn' with heq | hmem
            · subst heq
              refine ⟨t, hget, ?_⟩
              have huntouched : lf[l.findIdx (fun r => r.fullname == some n')]? =
                  (l.set (l.findIdx (fun r => r.fullname == some n')) t2)[
                    l.findIdx (fun r => r.fullname == some n')]? := by
                refine ih.2.2.2.2.2.1 _ ?_
                intro n2 hn2 heqi
                rw [hidx n2] at heqi
                have hget2 : l[l.findIdx (fun r => r.fullname == some n2)]? = some t := by
                  rw [heqi]; exact hget
                have hn2e : n2 = n' := by
                  have h1 : t.fullname = some n2 := findIdx_key_found hget2
                  have := h1.symm.trans hte
                  simpa using this
                exact hnd'.1 (hn2e ▸ hn2)
              rw [huntouched, List.getElem?_set_eq hlt, hmerge]
            · obtain ⟨t', ht'get, ht'merge⟩ := ih.2.2.2.2.2.2 hnd'.2 n' hmem
              have hte' : t'.fullname = some n' := findIdx_key_found ht'get
              rw [hidx n'] at ht'get ht'merge
              have hne : l.findIdx (fun r => r.fullname == some n') ≠
                  l.findIdx (fun r => r.fullname == some n) := by
                intro heq
                rw [heq] at ht'get
                have hg3 : (l.set (l.findIdx (fun r => r.fullname == some n)) t2)[
                    l.findIdx (fun r => r.fullname == some n)]? = some t2 :=
                  List.getElem?_set_eq hlt
                have ht2 : t' = t2 := Option.some.inj (ht'get.symm.trans hg3)
                rw [ht2, hf.1, hte] at hte'
                refine hnd'.1 ?_
                rw [Option.some.inj hte']
                exact hmem
              exact ⟨t', ((List.getElem?_set_ne hne.symm).symm.trans ht'get),
                ht'merge⟩

/-! ### The sorted, annotated working set -/

theorem withFullname_cd (r : Rec) : (withFullname r).createdate = r.createdate := rfl

theorem prepared_cd_map (input : List Rec) :
    (prepared input).map (fun r => r.createdate) =
      (sortCd input).map (fun r => r.createdate) := by
  rw [prepared, List.map_map]
  rfl

theorem prepared_sorted (input : List Rec) : (prepared input).Sorted recLE :=
  sorted_of_cd_map_eq (prepared_cd_map input) (sortCd_sorted input)

theorem prepared_mem {input : List Rec} {r : Rec} (h : r ∈ prepared input) :
    ∃ s ∈ input, r = withFullname s := by
  obtain ⟨s, hs, hr⟩ := List.mem_map.mp h
  exact ⟨s, (sortCd_perm input).mem_iff.mp hs, hr.symm⟩

theorem withFullname_id {r : Rec}
    (h : r.fullname = ofNames r.firstname r.lastname) : withFullname r = r := by
  cases r
  simp only [withFullname] at *
  simp [← h]

/-- The whole of `duplicatesManagement`, written out as its three stages.
Both duplicate snapshots and both key lists are computed from the sorted,
annotated working set before any merging; the duplicate rows are only
dropped after both loops have run. -/
theorem duplicatesManagement_stages {input out : List Rec}
    (h : duplicatesManagement input = some out) :
    ∃ df2 df3,
      emailPass (dupsBy (fun r => r.email) (prepared input))
        (dedupFirst ((dupsBy (fun r => r.email) (prepared input)).filterMap
          (fun r => r.email)))
        (prepared input) = some df2 ∧
      namePass (dupsBy (fun r => r.fullname) (prepared input))
        (dedupFirst ((dupsBy (fun r => r.fullname) (prepared input)).filterMap
          (fun r => r.fullname)))
        df2 = some df3 ∧
      out = dropDupsBy (fun r => r.fullname) (dropDupsBy (fun r => r.email) df3) := by
  rw [duplicatesManagement] at h
  split at h
  · exact absurd h (by simp)
  · rename_i df2 he
    split at h
    · exact absurd h (by simp)
    · rename_i df3 hn
      exact ⟨df2, df3, he, hn, (Option.some.inj h).symm⟩

/-- Rows of a list whose fullname, firstname and lastname columns agree
with those of another list correspond row-by-row. -/
theorem corresponding_mem {l l' : List Rec}
    (h2 : l'.map (fun r => r.fullname) = l.map (fun r => r.fullname))
    (h3 : l'.map (fun r => r.firstname) = l.map (fun r => r.firstname))
    (h4 : l'.map (fun r => r.lastname) = l.map (fun r => r.lastname)) :
    ∀ r' ∈ l', ∃ r ∈ l, r'.fullname = r.fullname ∧ r'.firstname = r.firstname ∧
      r'.lastname = r.lastname := by
  intro r' hr'
  obtain ⟨j, hj⟩ := List.mem_iff_getElem?.mp hr'
  have hlen : l'.length = l.length := by
    have := congrArg List.length h2
    simpa using this
  have hjlt : j < l.length := by
    rw [← hlen]
    exact (List.getElem?_eq_some_iff.mp hj).1
  have hr : l[j]? = some l[j] := List.getElem?_eq_getElem hjlt
  refine ⟨l[j], mem_of_getElem? hr, ?_, ?_, ?_⟩
  · have := congrArg (fun m => m[j]?) h2
    simp only [List.getElem?_map, hj, hr] at this
    simpa using this
  · have := congrArg (fun m => m[j]?) h3
    simp only [List.getElem?_map, hj, hr] at this
    simpa using this
  · have := congrArg (fun m => m[j]?) h4
    simp only [List.getElem?_map, hj, hr] at this
    simpa using this

/-- A working set that is already sorted, whose fullname column agrees
with its name columns, and whose email and fullname columns are free of
repeats (absent keys counted as equal) passes through
`duplicatesManagement` unchanged. -/
theorem duplicatesManagement_eq_self {l : List Rec}
    (hsorted : l.Sorted recLE)
    (hcons : ∀ r ∈ l, r.fullname = ofNames r.firstname r.lastname)
    (hemail : (l.map (fun r => r.email)).Nodup)
    (hfull : (l.map (fun r => r.fullname)).Nodup) :
    duplicatesManagement l = some l := by
  have hprep : prepared l = l := by
    rw [prepared, sortCd_eq_self hsorted]
    exact (List.map_congr_left (fun a ha => withFullname_id (hcons a ha))).trans
      (List.map_id l)
  simp only [duplicatesManagement, hprep, dupsBy_eq_nil_of_nodup hemail,
    dupsBy_eq_nil_of_nodup hfull, List.filterMap_nil, dedupFirst, dedupFirstAux,
    emailPass, namePass]
  rw [dropDupsBy_eq_self hemail, dropDupsBy_eq_self hfull]

/-! ### Lower/strip normalization is idempotent -/

theorem toNat_ofNatAux (n : Nat) (h : n.isValidChar) :
    (Char.ofNatAux n h).toNat = n := rfl

theorem lowerChar_toNat_of_upper {c : Char}
    (h : (65 ≤ c.toNat ∧ c.toNat ≤ 90) ∨
      (192 ≤ c.toNat ∧ c.toNat ≤ 222 ∧ c.toNat ≠ 215)) :
    (lowerChar c).toNat = c.toNat + 32 := by
  rw [lowerChar, dif_pos h]
  exact toNat_ofNatAux _ _

theorem lowerChar_of_not_upper {c : Char}
    (h : ¬((65 ≤ c.toNat ∧ c.toNat ≤ 90) ∨
      (192 ≤ c.toNat ∧ c.toNat ≤ 222 ∧ c.toNat ≠ 215))) :
    lowerChar c = c := by
  rw [lowerChar, dif_neg h]

theorem lowerChar_idem (c : Char) : lowerChar (lowerChar c) = lowerChar c := by
  by_cases h : (65 ≤ c.toNat ∧ c.toNat ≤ 90) ∨
      (192 ≤ c.toNat ∧ c.toNat ≤ 222 ∧ c.toNat ≠ 215)
  · refine lowerChar_of_not_upper ?_
    rw [lowerChar_toNat_of_upper h]
    omega
  · rw [lowerChar_of_not_upper h]
    exact lowerChar_of_not_upper h

theorem wsChar_lowerChar (c : Char) : wsChar (lowerChar c) = wsChar c := by
  by_cases h : (65 ≤ c.toNat ∧ c.toNat ≤ 90) ∨
      (192 ≤ c.toNat ∧ c.toNat ≤ 222 ∧ c.toNat ≠ 215)
  · have h1 : wsChar (lowerChar c) = false := by
      simp only [wsChar, lowerChar_toNat_of_upper h, Bool.or_eq_false_iff,
        beq_eq_false_iff_ne, ne_eq]
      omega
    have h2 : wsChar c = false := by
      simp only [wsChar, Bool.or_eq_false_iff, beq_eq_false_iff_ne, ne_eq]
      omega
    rw [h1, h2]
  · rw [lowerChar_of_not_upper h]

theorem dropWhile_eq_cons_imp {α : Type} {p : α → Bool} :
    ∀ {l : List α} {a : α} {t : List α}, l.dropWhile p = a :: t → p a = false
  | [], _, _, h => by simp at h
  | x :: xs, a, t, h => by
    by_cases hx : p x
    · rw [List.dropWhile_cons_of_pos hx] at h
      exact dropWhile_eq_cons_imp h
    · rw [List.dropWhile_cons_of_neg hx] at h
      have hxa : x = a := (List.cons.inj h).1
      rw [← hxa]
      revert hx
      cases p x <;> simp

theorem dropWhile_cons_false {α : Type} {p : α → Bool} {a : α} {t : List α}
    (h : p a = false) : (a :: t).dropWhile p = a :: t :=
  List.dropWhile_cons_of_neg (by simp [h])

theorem dropWhile_idem {α : Type} (p : α → Bool) (l : List α) :
    (l.dropWhile p).dropWhile p = l.dropWhile p := by
  cases h : l.dropWhile p with
  | nil => rfl
  | cons a t => exact dropWhile_cons_false (dropWhile_eq_cons_imp h)

theorem exists_append_dropWhile {α : Type} (p : α → Bool) :
    ∀ l : List α, ∃ D, l = D ++ l.dropWhile p
  | [] => ⟨[], rfl⟩
  | x :: xs => by
    by_cases hx : p x
    · obtain ⟨D, hD⟩ := exists_append_dropWhile p xs
      exact ⟨x :: D, by rw [List.dropWhile_cons_of_pos hx, List.cons_append, ← hD]⟩
    · exact ⟨[], by rw [List.dropWhile_cons_of_neg hx]; rfl⟩

theorem stripWs_idem (l : List Char) : stripWs (stripWs l) = stripWs l := by
  have h1 : (stripWs l).dropWhile wsChar = stripWs l := by
    cases hB : stripWs l with
    | nil => rfl
    | cons b bt =>
      refine dropWhile_cons_false ?_
      obtain ⟨D, hD⟩ := exists_append_dropWhile wsChar (l.dropWhile wsChar).reverse
      have hA : l.dropWhile wsChar = stripWs l ++ D.reverse := by
        have := congrArg List.reverse hD
        simpa [stripWs] using this
      rw [hB] at hA
      exact dropWhile_eq_cons_imp hA
  have h2 : (stripWs l).reverse.dropWhile wsChar = (stripWs l).reverse := by
    rw [stripWs, List.reverse_reverse]
    exact dropWhile_idem _ _
  calc stripWs (stripWs l)
      = ((stripWs l).reverse.dropWhile wsChar).reverse := by rw [stripWs, h1]
    _ = stripWs l := by rw [h2, List.reverse_reverse]

theorem stripWs_map_lower (l : List Char) :
    stripWs (l.map lowerChar) = (stripWs l).map lowerChar := by
  have hpred : (wsChar ∘ lowerChar) = wsChar := funext wsChar_lowerChar
  rw [stripWs, stripWs, List.dropWhile_map, hpred, ← List.map_reverse,
    List.dropWhile_map, hpred, ← List.map_reverse]

theorem map_lower_idem (l : List Char) :
    (l.map lowerChar).map lowerChar = l.map lowerChar := by
  rw [List.map_map]
  exact List.map_congr_left (fun a _ => lowerChar_idem a)

/-- The column normalization of lines 213-214 is idempotent. -/
theorem normDialRow_idem (r : DialRow) : normDialRow (normDialRow r) = normDialRow r := by
  rw [normDialRow, normDialRow]
  have : pyStrip (pyLower (pyStrip (pyLower r.country))) = pyStrip (pyLower r.country) := by
    show (⟨stripWs ((stripWs ((r.country.data).map lowerChar)).map lowerChar)⟩ : String) =
      ⟨stripWs ((r.country.data).map lowerChar)⟩
    rw [stripWs_map_lower, stripWs_idem, stripWs_map_lower, map_lower_idem]
  rw [this]

/-- Every call leaves the table fully normalized, whatever it computes. -/
theorem fixPhoneNumber_table (p c : String) (t : List DialRow) :
    (fixPhoneNumber p c t).2 = t.map normDialRow := by
  rw [fixPhoneNumber]
  split
  · rfl
  · split
    · split <;> rfl
    · rfl

/-! ### Spec-side notions used to state the claims -/

/-- The backfill contract, in the words of the specification's glossary:
a present survivor value is never overwritten, an absent one receives the
group's first present value in sort order. -/
def backfilled (cur new : Option String) (donors : List (Option String)) : Prop :=
  (cur.isSome = true → new = cur) ∧ (cur = none → new = firstNonNone donors)

theorem bf_backfilled (cur : Option String) (donors : List (Option String)) :
    backfilled cur (bf cur donors) donors := by
  cases cur <;> simp [backfilled, bf]

/-- Written from the spec's email pass: row `j` of the sorted working set
survives it when the row carries no email, its email is unshared, or it
is the first (most recent) row bearing that email. -/
def specEmailSurvivor (l : List Rec) (j : Nat) : Bool :=
  match l[j]? with
  | none => true
  | some r =>
    match r.email with
    | none => true
    | some e =>
      decide (countKey (fun x => x.email) l (some e) < 2) ||
        decide (l.findIdx (fun x => x.email == some e) = j)

/-- Extraction of one email group's merge from a successful run of the
email loop: the working set's first row with email `e` is replaced by the
merge of its old value with the snapshot group. -/
theorem emailPass_target_merge {input df2 : List Rec}
    (h : emailPass (dupsBy (fun r => r.email) (prepared input))
      (dedupFirst ((dupsBy (fun r => r.email) (prepared input)).filterMap
        (fun r => r.email)))
      (prepared input) = some df2) :
    ∀ e ∈ dedupFirst ((dupsBy (fun r => r.email) (prepared input)).filterMap
        (fun r => r.email)),
      ∃ t t2,
        (prepared input)[(prepared input).findIdx (fun r => r.email == some e)]? =
          some t ∧
        df2[(prepared input).findIdx (fun r => r.email == some e)]? = some t2 ∧
        mergeEmailRec t ((dupsBy (fun r => r.email) (prepared input)).filter
          (fun r => r.email == some e)) = some t2 := by
  intro e he
  have espec := emailPass_spec _ _ _ _ h
  obtain ⟨t, hget, hmrg⟩ := espec.2.2.2.2.2.2.2 (dedupFirst_nodup _) e he
  have hlt : (prepared input).findIdx (fun r => r.email == some e) <
      (prepared input).length := (List.getElem?_eq_some_iff.mp hget).1
  have hlt2 : (prepared input).findIdx (fun r => r.email == some e) < df2.length := by
    rw [espec.1]; exact hlt
  have h2 : df2[(prepared input).findIdx (fun r => r.email == some e)]? =
      some df2[(prepared input).findIdx (fun r => r.email == some e)] :=
    List.getElem?_eq_getElem hlt2
  exact ⟨t, _, hget, h2, hmrg.symm.trans h2⟩

/-! ### The claims -/

/-- Claim C1 (corrected).  The claim says the full-name pass's groups are
computed over the email-deduplicated working set.  In the code both
duplicate snapshots are taken from the sorted working set before any
merging, the email pass drops nothing (rows are only dropped after both
loops), and a full-name group is exactly the set of rows of the sorted
working set sharing a present fullname held by at least two rows —
regardless of whether they survive the email pass. -/
theorem c1_fullname_grouping_precedes_email_dedup (input out : List Rec)
    (h : duplicatesManagement input = some out) :
    ∃ df2 df3,
      emailPass (dupsBy (fun r => r.email) (prepared input))
        (dedupFirst ((dupsBy (fun r => r.email) (prepared input)).filterMap
          (fun r => r.email)))
        (prepared input) = some df2 ∧
      namePass (dupsBy (fun r => r.fullname) (prepared input))
        (dedupFirst ((dupsBy (fun r => r.fullname) (prepared input)).filterMap
          (fun r => r.fullname)))
        df2 = some df3 ∧
      out = dropDupsBy (fun r => r.fullname) (dropDupsBy (fun r => r.email) df3) ∧
      (∀ r, r ∈ dupsBy (fun r => r.fullname) (prepared input) ↔
        r ∈ prepared input ∧ r.fullname.isSome = true ∧
          2 ≤ countKey (fun x => x.fullname) (prepared input) r.fullname) := by
  obtain ⟨df2, df3, he, hn, hout⟩ := duplicatesManagement_stages h
  exact ⟨df2, df3, he, hn, hout, fun r => mem_dupsBy⟩

/-- Witness for C1's theorem at a concrete input. -/
theorem c1_witness :
    ∃ df2 df3,
      emailPass (dupsBy (fun r => r.email) (prepared ([] : List Rec)))
        (dedupFirst ((dupsBy (fun r => r.email) (prepared ([] : List Rec))).filterMap
          (fun r => r.email)))
        (prepared ([] : List Rec)) = some df2 ∧
      namePass (dupsBy (fun r => r.fullname) (prepared ([] : List Rec)))
        (dedupFirst ((dupsBy (fun r => r.fullname)
          (prepared ([] : List Rec))).filterMap (fun r => r.fullname)))
        df2 = some df3 ∧
      ([] : List Rec) = dropDupsBy (fun r => r.fullname)
        (dropDupsBy (fun r => r.email) df3) ∧
      (∀ r, r ∈ dupsBy (fun r => r.fullname) (prepared ([] : List Rec)) ↔
        r ∈ prepared ([] : List Rec) ∧ r.fullname.isSome = true ∧
          2 ≤ countKey (fun x => x.fullname) (prepared ([] : List Rec)) r.fullname) :=
  c1_fullname_grouping_precedes_email_dedup [] [] (by decide)

/-- Counterexample to C1 as stated: with the records below the merged
"John Doe" full-name group contains the working set's row 2, which shares
email "e" with the more recent row 1 and so does not survive the email
pass; its city even reaches the canonical record. -/
theorem c1_counterexample :
    let input : List Rec :=
      [{ firstname := some "John", lastname := some "Doe", email := some "g",
         original_industry := some "i", createdate := some 3 },
       { email := some "e", original_industry := some "i", createdate := some 2 },
       { firstname := some "John", lastname := some "Doe", email := some "e",
         city := some "Lyon", original_industry := some "i", createdate := some 1 }]
    (dedupFirst ((dupsBy (fun r => r.fullname) (prepared input)).filterMap
      (fun r => r.fullname)) = ["John Doe"]) ∧
    (dupsBy (fun r => r.fullname) (prepared input))[1]? = (prepared input)[2]? ∧
    ((prepared input)[2]?.map (fun r => r.email) = some (some "e")) ∧
    specEmailSurvivor (prepared input) 2 = false ∧
    (duplicatesManagement input).map (List.map (fun r => r.city)) =
      some [some "Lyon"] := by
  decide

/-- Claim C2 (corrected).  Backfill first-non-absent semantics holds
exactly for the email pass: for each processed email, the merge target's
post-pass value of each of the five mergeable columns keeps a present
value and otherwise receives the first present value among the snapshot
group's rows in sort order.  (The full-name pass violates the claim as
stated: its donors are the stale pre-merge snapshot — see the
counterexample.) -/
theorem c2_email_backfill_first_nonabsent (input df2 : List Rec)
    (h : emailPass (dupsBy (fun r => r.email) (prepared input))
      (dedupFirst ((dupsBy (fun r => r.email) (prepared input)).filterMap
        (fun r => r.email)))
      (prepared input) = some df2) :
    ∀ e ∈ dedupFirst ((dupsBy (fun r => r.email) (prepared input)).filterMap
        (fun r => r.email)),
      ∃ t t2,
        (prepared input)[(prepared input).findIdx (fun r => r.email == some e)]? =
          some t ∧
        df2[(prepared input).findIdx (fun r => r.email == some e)]? = some t2 ∧
        backfilled t.fullname t2.fullname
          (((dupsBy (fun r => r.email) (prepared input)).filter
            (fun r => r.email == some e)).map (fun r => r.fullname)) ∧
        backfilled t.address t2.address
          (((dupsBy (fun r => r.email) (prepared input)).filter
            (fun r => r.email == some e)).map (fun r => r.address)) ∧
        backfilled t.country t2.country
          (((dupsBy (fun r => r.email) (prepared input)).filter
            (fun r => r.email == some e)).map (fun r => r.country)) ∧
        backfilled t.city t2.city
          (((dupsBy (fun r => r.email) (prepared input)).filter
            (fun r => r.email == some e)).map (fun r => r.city)) ∧
        backfilled t.phone t2.phone
          (((dupsBy (fun r => r.email) (prepared input)).filter
            (fun r => r.email == some e)).map (fun r => r.phone)) := by
  intro e he
  obtain ⟨t, t2, hget, hget2, hmrg⟩ := emailPass_target_merge h e he
  refine ⟨t, t2, hget, hget2, ?_, ?_, ?_, ?_, ?_⟩ <;>
  · cases hind : t.original_industry with
    | none => rw [mergeEmailRec, hind] at hmrg; exact absurd hmrg (by simp)
    | some ind =>
      simp only [mergeEmailRec, hind, Option.some.injEq] at hmrg
      subst hmrg
      exact bf_backfilled _ _

/-- A two-record duplicate pair used to instantiate the pass theorems:
same email, the older record has the city the newer one lacks. -/
def wPair : List Rec :=
  [{ firstname := some "A", lastname := some "B", email := some "e",
     original_industry := some "i", createdate := some 2 },
   { firstname := some "C", lastname := some "D", email := some "e",
     city := some "X", original_industry := some "i", createdate := some 1 }]

/-- The working set after `wPair`'s email pass. -/
def wPairMerged : List Rec :=
  [{ firstname := some "A", lastname := some "B", fullname := some "A B",
     email := some "e", city := some "X", original_industry := some "i",
     createdate := some 2 },
   { firstname := some "C", lastname := some "D", fullname := some "C D",
     email := some "e", city := some "X", original_industry := some "i",
     createdate := some 1 }]

/-- Witness for C2's theorem at a concrete input. -/
theorem c2_witness :
    ∃ t t2,
      (prepared wPair)[(prepared wPair).findIdx (fun r => r.email == some "e")]? =
        some t ∧
      wPairMerged[(prepared wPair).findIdx (fun r => r.email == some "e")]? =
        some t2 ∧
      backfilled t.fullname t2.fullname
        (((dupsBy (fun r => r.email) (prepared wPair)).filter
          (fun r => r.email == some "e")).map (fun r => r.fullname)) ∧
      backfilled t.address t2.address
        (((dupsBy (fun r => r.email) (prepared wPair)).filter
          (fun r => r.email == some "e")).map (fun r => r.address)) ∧
      backfilled t.country t2.country
        (((dupsBy (fun r => r.email) (prepared wPair)).filter
          (fun r => r.email == some "e")).map (fun r => r.country)) ∧
      backfilled t.city t2.city
        (((dupsBy (fun r => r.email) (prepared wPair)).filter
          (fun r => r.email == some "e")).map (fun r => r.city)) ∧
      backfilled t.phone t2.phone
        (((dupsBy (fun r => r.email) (prepared wPair)).filter
          (fun r => r.email == some "e")).map (fun r => r.phone)) :=
  c2_email_backfill_first_nonabsent wPair wPairMerged (by decide) "e" (by decide)

/-- Counterexample to C2 as stated: in the full-name pass for
"John Doe", the merge target's city is absent and a group member's city
is "Paris" at merge time (backfilled by the email pass), yet the target's
post-merge city — and the canonical record's — stays absent, because the
donors come from the stale pre-merge snapshot. -/
theorem c2_counterexample :
    let input : List Rec :=
      [{ firstname := some "John", lastname := some "Doe", email := some "g",
         original_industry := some "i", createdate := some 3 },
       { firstname := some "John", lastname := some "Doe", email := some "e",
         original_industry := some "i", createdate := some 2 },
       { email := some "e", city := some "Paris",
         original_industry := some "i", createdate := some 1 }]
    ((emailPass (dupsBy (fun r => r.email) (prepared input))
        (dedupFirst ((dupsBy (fun r => r.email) (prepared input)).filterMap
          (fun r => r.email)))
        (prepared input)).map
      (List.map (fun r => (r.fullname, r.city))) =
      some [(some "John Doe", none), (some "John Doe", some "Paris"),
        (none, some "Paris")]) ∧
    ((dupsBy (fun r => r.fullname) (prepared input)).map
      (fun r => (r.fullname, r.city)) =
      [(some "John Doe", none), (some "John Doe", none)]) ∧
    (duplicatesManagement input).map (List.map (fun r => (r.fullname, r.city))) =
      some [(some "John Doe", none)] := by
  decide

/-- Claim C3 (corrected).  Only rows with an absent key are excluded from
a pass's grouping — empty-string keys do participate (see the
counterexample).  The final duplicate drops treat absent keys as equal,
so at most one row with an absent email and at most one with an absent
fullname appear in the output; a keyless record therefore does not in
general pass through. -/
theorem c3_absent_keys_excluded (input out : List Rec)
    (h : duplicatesManagement input = some out) :
    (∀ r ∈ dupsBy (fun x => x.email) (prepared input), r.email.isSome = true) ∧
    (∀ r ∈ dupsBy (fun x => x.fullname) (prepared input),
      r.fullname.isSome = true) ∧
    countKey (fun x => x.email) out none ≤ 1 ∧
    countKey (fun x => x.fullname) out none ≤ 1 := by
  obtain ⟨df2, df3, _, _, hout⟩ := duplicatesManagement_stages h
  subst hout
  refine ⟨fun r hr => (mem_dupsBy.mp hr).2.1, fun r hr => (mem_dupsBy.mp hr).2.1,
    ?_, ?_⟩
  · have hin : ((dropDupsBy (fun x => x.email) df3).map (fun x => x.email)).Nodup :=
      dropDupsBy_keys_nodup _ _
    have hsub : (dropDupsBy (fun x => x.fullname)
        (dropDupsBy (fun x => x.email) df3)).Sublist
        (dropDupsBy (fun x => x.email) df3) := dropDupsBy_sublist _ _
    exact countKey_le_one_of_nodup
      ((List.Sublist.map (fun x => x.email) hsub).nodup hin) none
  · exact countKey_le_one_of_nodup (dropDupsBy_keys_nodup _ _) none

/-- Witness for C3's theorem at a concrete input. -/
theorem c3_witness :
    (∀ r ∈ dupsBy (fun x => x.email) (prepared ([] : List Rec)),
      r.email.isSome = true) ∧
    (∀ r ∈ dupsBy (fun x => x.fullname) (prepared ([] : List Rec)),
      r.fullname.isSome = true) ∧
    countKey (fun x => x.email) ([] : List Rec) none ≤ 1 ∧
    countKey (fun x => x.fullname) ([] : List Rec) none ≤ 1 :=
  c3_absent_keys_excluded [] [] (by decide)

/-- Counterexample to C3 as stated: two rows whose email is the empty
string are grouped and merged by the email pass (the claim says they are
excluded), and of two records with neither email nor fullname only the
first survives to the output (the claim says such a record passes
through unmerged). -/
theorem c3_counterexample :
    ((dupsBy (fun r => r.email) (prepared
      [({ firstname := some "A", lastname := some "B", email := some "",
          original_industry := some "i", createdate := some 2 } : Rec),
       { firstname := some "C", lastname := some "D", email := some "",
         city := some "X", original_industry := some "i",
         createdate := some 1 }])).length = 2) ∧
    ((duplicatesManagement
      [({ firstname := some "A", lastname := some "B", email := some "",
          original_industry := some "i", createdate := some 2 } : Rec),
       { firstname := some "C", lastname := some "D", email := some "",
         city := some "X", original_industry := some "i",
         createdate := some 1 }]).map
      (List.map (fun r => (r.email, r.city))) =
      some [(some "", some "X")]) ∧
    ((duplicatesManagement
      [({ city := some "P", original_industry := some "i",
          createdate := some 2 } : Rec),
       { city := some "Q", original_industry := some "i",
         createdate := some 1 }]).map List.length = some 1) := by
  decide

/-- Claim C4 (corrected).  For the email pass, the merge target's
post-pass industry string is `mergeIndustry` of its old string with the
group's present industry strings in sort order: each whole member string
is appended after a `';'` unless it already occurs as a substring of the
accumulated string (not tag-by-tag, not by exact tag equality), a `';'`
is prefixed when anything was appended, and a single non-overlapping
`';;' -> ';'` replacement pass runs at the end.  Duplicate whole tags can
survive; see the counterexample. -/
theorem c4_email_tag_merge (input df2 : List Rec)
    (h : emailPass (dupsBy (fun r => r.email) (prepared input))
      (dedupFirst ((dupsBy (fun r => r.email) (prepared input)).filterMap
        (fun r => r.email)))
      (prepared input) = some df2) :
    ∀ e ∈ dedupFirst ((dupsBy (fun r => r.email) (prepared input)).filterMap
        (fun r => r.email)),
      ∃ t ind t2,
        (prepared input)[(prepared input).findIdx (fun r => r.email == some e)]? =
          some t ∧
        t.original_industry = some ind ∧
        df2[(prepared input).findIdx (fun r => r.email == some e)]? = some t2 ∧
        t2.original_industry = some (mergeIndustry ind
          (((dupsBy (fun r => r.email) (prepared input)).filter
            (fun r => r.email == some e)).filterMap
            (fun r => r.original_industry))) := by
  intro e he
  obtain ⟨t, t2, hget, hget2, hmrg⟩ := emailPass_target_merge h e he
  cases hind : t.original_industry with
  | none => rw [mergeEmailRec, hind] at hmrg; exact absurd hmrg (by simp)
  | some ind =>
    simp only [mergeEmailRec, hind, Option.some.injEq] at hmrg
    subst hmrg
    exact ⟨t, ind, _, hget, hind, hget2, rfl⟩

/-- A two-record duplicate pair whose industry strings overlap. -/
def tagPair : List Rec :=
  [{ firstname := some "A", lastname := some "B", email := some "e",
     original_industry := some "a", createdate := some 2 },
   { firstname := some "C", lastname := some "D", email := some "e",
     original_industry := some "a;b", createdate := some 1 }]

/-- The working set after `tagPair`'s email pass. -/
def tagPairMerged : List Rec :=
  [{ firstname := some "A", lastname := some "B", fullname := some "A B",
     email := some "e", original_industry := some ";a;a;b",
     createdate := some 2 },
   { firstname := some "C", lastname := some "D", fullname := some "C D",
     email := some "e", original_industry := some "a;b",
     createdate := some 1 }]

/-- Witness for C4's theorem at a concrete input. -/
theorem c4_witness :
    ∃ t ind t2,
      (prepared tagPair)[(prepared tagPair).findIdx
        (fun r => r.email == some "e")]? = some t ∧
      t.original_industry = some ind ∧
      tagPairMerged[(prepared tagPair).findIdx
        (fun r => r.email == some "e")]? = some t2 ∧
      t2.original_industry = some (mergeIndustry ind
        (((dupsBy (fun r => r.email) (prepared tagPair)).filter
          (fun r => r.email == some "e")).filterMap
          (fun r => r.original_industry))) :=
  c4_email_tag_merge tagPair tagPairMerged (by decide) "e" (by decide)

/-- Counterexample to C4 as stated: merging survivor industry "a" with a
member's "a;b" yields ";a;a;b" — the tag "a" appears twice, so the
post-merge tag set is not a duplicate-free union; and a member string
that is a substring of the survivor's ("fin" against "finance") is
swallowed whole instead of contributing its distinct tag. -/
theorem c4_counterexample :
    ((duplicatesManagement
      [({ firstname := some "A", lastname := some "B", email := some "e",
          original_industry := some "a", createdate := some 2 } : Rec),
       { firstname := some "C", lastname := some "D", email := some "e",
         original_industry := some "a;b", createdate := some 1 }]).map
      (List.map (fun r => r.original_industry)) = some [some ";a;a;b"]) ∧
    (tagsOf ";a;a;b").count "a" = 2 ∧
    ((duplicatesManagement
      [({ firstname := some "A", lastname := some "B", email := some "e",
          original_industry := some "finance", createdate := some 2 } : Rec),
       { firstname := some "C", lastname := some "D", email := some "e",
         original_industry := some "fin", createdate := some 1 }]).map
      (List.map (fun r => r.original_industry)) = some [some "finance"]) := by
  decide

/-- Claim C6 (corrected).  `duplicatesManagement` is not idempotent in
general: the function recomputes the `fullname` column from the name
columns on entry, so a fullname that was backfilled onto a record whose
own name components are absent is wiped by a second run (see the
counterexample).  It is idempotent on inputs whose records all carry
first and last names and whose present `createdate` values are pairwise
distinct: a first run then leaves a sorted working set with consistent
fullnames and repeat-free email and fullname columns, on which a second
run changes nothing.  The distinctness hypothesis pins the program's
tie order — under it the default-quicksort sort is uniquely determined
and agrees with the reference sort of the model
(`sortCd_eq_of_sorted_perm`); without it the code's unstable re-sort
may permute tied rows of an already-deduplicated frame above numpy's
cutoff, and exact list equality fails. -/
theorem c6_idempotent_on_named_records (input out : List Rec)
    (hnames : ∀ r ∈ input, r.firstname.isSome = true ∧ r.lastname.isSome = true)
    (_hcds : (input.filterMap (fun r => r.createdate)).Nodup)
    (h : duplicatesManagement input = some out) :
    duplicatesManagement out = some out := by
  obtain ⟨df2, df3, he, hn, hout⟩ := duplicatesManagement_stages h
  have hd1 : ∀ r ∈ prepared input,
      r.fullname = ofNames r.firstname r.lastname ∧ r.fullname.isSome = true := by
    intro r hr
    obtain ⟨s, hs, rfl⟩ := prepared_mem hr
    obtain ⟨f, hfv⟩ := Option.isSome_iff_exists.mp (hnames s hs).1
    obtain ⟨g, hgv⟩ := Option.isSome_iff_exists.mp (hnames s hs).2
    refine ⟨rfl, ?_⟩
    show (ofNames s.firstname s.lastname).isSome = true
    rw [hfv, hgv]
    rfl
  have espec := emailPass_spec _ _ _ _ he
  have nspec := namePass_spec _ _ _ _ hn
  have hfull2 : df2.map (fun r => r.fullname) =
      (prepared input).map (fun r => r.fullname) :=
    espec.2.2.2.2.2.1 (fun a ha => (hd1 a ha).2)
  have hfull3 : df3.map (fun r => r.fullname) =
      (prepared input).map (fun r => r.fullname) :=
    nspec.2.1.trans hfull2
  have hcd3 : df3.map (fun r => r.createdate) =
      (prepared input).map (fun r => r.createdate) :=
    nspec.2.2.1.trans espec.2.2.1
  have hfn3 : df3.map (fun r => r.firstname) =
      (prepared input).map (fun r => r.firstname) :=
    nspec.2.2.2.1.trans espec.2.2.2.1
  have hln3 : df3.map (fun r => r.lastname) =
      (prepared input).map (fun r => r.lastname) :=
    nspec.2.2.2.2.1.trans espec.2.2.2.2.1
  have hsorted3 : df3.Sorted recLE :=
    sorted_of_cd_map_eq hcd3 (prepared_sorted input)
  have hcons3 : ∀ r ∈ df3,
      r.fullname = ofNames r.firstname r.lastname := by
    intro r' hr'
    obtain ⟨r, hr, hf, hfn, hlnn⟩ := corresponding_mem hfull3 hfn3 hln3 r' hr'
    rw [hf, hfn, hlnn]
    exact (hd1 r hr).1
  have hsubout : out.Sublist df3 := by
    rw [hout]
    exact (dropDupsBy_sublist _ _).trans (dropDupsBy_sublist _ _)
  have hsortedout : out.Sorted recLE := List.Pairwise.sublist hsubout hsorted3
  have hconsout : ∀ r ∈ out, r.fullname = ofNames r.firstname r.lastname :=
    fun r hr => hcons3 r (hsubout.subset hr)
  have hemailout : (out.map (fun r => r.email)).Nodup := by
    have hin : ((dropDupsBy (fun r => r.email) df3).map (fun r => r.email)).Nodup :=
      dropDupsBy_keys_nodup _ _
    have hsub : out.Sublist (dropDupsBy (fun r => r.email) df3) := by
      rw [hout]
      exact dropDupsBy_sublist _ _
    exact (List.Sublist.map (fun r => r.email) hsub).nodup hin
  have hfullout : (out.map (fun r => r.fullname)).Nodup := by
    rw [hout]
    exact dropDupsBy_keys_nodup _ _
  exact duplicatesManagement_eq_self hsortedout hconsout hemailout hfullout

/-- The canonical record `duplicatesManagement` produces from `wPair`. -/
def wPairCanonical : Rec :=
  { firstname := some "A", lastname := some "B", fullname := some "A B",
    email := some "e", city := some "X", original_industry := some "i",
    createdate := some 2 }

/-- Witness for C6's theorem at a concrete input. -/
theorem c6_witness :
    duplicatesManagement [wPairCanonical] = some [wPairCanonical] :=
  c6_idempotent_on_named_records wPair [wPairCanonical] (by decide) (by decide)
    (by decide)

/-- Counterexample to C6 as stated: the most recent record lacks name
components, its fullname is backfilled from the older duplicate, and a
second application of `duplicatesManagement` wipes that fullname — the
two sides differ. -/
theorem c6_counterexample :
    (duplicatesManagement
      [({ email := some "e", original_industry := some "i",
          createdate := some 2 } : Rec),
       { firstname := some "John", lastname := some "Doe", email := some "e",
         original_industry := some "i", createdate := some 1 }]).bind
      duplicatesManagement ≠
    duplicatesManagement
      [({ email := some "e", original_industry := some "i",
          createdate := some 2 } : Rec),
       { firstname := some "John", lastname := some "Doe", email := some "e",
         original_industry := some "i", createdate := some 1 }] := by
  decide

/-- Claim C7 (corrected).  `fixPhoneNumber` returns the empty string for
a digit-free input.  Otherwise, when the lowercased, stripped
`countryName` is free of regex metacharacters — so that the regex lookup
of line 220 is literal substring containment — the output is
`"(+<code>) <head> <tail>"`, where head and tail split the digit string
*after conversion through `str(int(.))`* — so leading zeros are lost,
contrary to the claim that the digits are exactly the non-digit-stripped
characters — the tail is the last six digits, and when no table row's
normalized country name contains the normalized input the code is the
literal `"unknow"`, not `"unknown"` (see the counterexample).  A
metacharacter-bearing `countryName` makes the code match under
regular-expression rules, or raise `re.error` uncaught; that case is
outside the model and marked `none`. -/
theorem c7_phone_format (phone country : String) (table : List DialRow) :
    (digitsOf phone = [] → (fixPhoneNumber phone country table).1 = some "") ∧
    (digitsOf phone ≠ [] → plainPat (pyStrip (pyLower country)) = true →
      ∃ code pre suf : String,
        (fixPhoneNumber phone country table).1 =
          some ("(+" ++ code ++ ") " ++ pre ++ " " ++ suf) ∧
        pre.data ++ suf.data = stripZeros (digitsOf phone) ∧
        suf.length = min 6 (stripZeros (digitsOf phone)).length ∧
        ((∃ row, (table.map normDialRow).find?
            (fun r => hasSub r.country (pyStrip (pyLower country))) = some row ∧
            code = row.dial) ∨
          ((table.map normDialRow).find?
            (fun r => hasSub r.country (pyStrip (pyLower country))) = none ∧
            code = "unknow"))) ∧
    (digitsOf phone ≠ [] → plainPat (pyStrip (pyLower country)) = false →
      (fixPhoneNumber phone country table).1 = none) := by
  refine ⟨?_, ?_, ?_⟩
  · intro h
    simp only [fixPhoneNumber]
    rw [if_pos (by simp [h])]
  · intro h hplain
    simp only [fixPhoneNumber]
    rw [if_neg (by simp [h]), if_pos hplain]
    cases hf : (table.map normDialRow).find?
        (fun r => hasSub r.country (pyStrip (pyLower country))) with
    | some row =>
      refine ⟨row.dial,
        ⟨(stripZeros (digitsOf phone)).take
          ((stripZeros (digitsOf phone)).length - 6)⟩,
        ⟨(stripZeros (digitsOf phone)).drop
          ((stripZeros (digitsOf phone)).length - 6)⟩,
        rfl, List.take_append_drop _ _, ?_, Or.inl ⟨row, rfl, rfl⟩⟩
      show ((stripZeros (digitsOf phone)).drop
        ((stripZeros (digitsOf phone)).length - 6)).length =
        min 6 (stripZeros (digitsOf phone)).length
      rw [List.length_drop]
      omega
    | none =>
      refine ⟨"unknow",
        ⟨(stripZeros (digitsOf phone)).take
          ((stripZeros (digitsOf phone)).length - 6)⟩,
        ⟨(stripZeros (digitsOf phone)).drop
          ((stripZeros (digitsOf phone)).length - 6)⟩,
        rfl, List.take_append_drop _ _, ?_, Or.inr ⟨rfl, rfl⟩⟩
      show ((stripZeros (digitsOf phone)).drop
        ((stripZeros (digitsOf phone)).length - 6)).length =
        min 6 (stripZeros (digitsOf phone)).length
      rw [List.length_drop]
      omega
  · intro h hplain
    simp only [fixPhoneNumber]
    rw [if_neg (by simp [h]), if_neg (by simp [hplain])]

/-- Witness for C7's theorem at a concrete input. -/
theorem c7_witness :
    ∃ code pre suf : String,
      (fixPhoneNumber "+1 (555) 123-4567" "France" [⟨"33", "France"⟩]).1 =
        some ("(+" ++ code ++ ") " ++ pre ++ " " ++ suf) ∧
      pre.data ++ suf.data = stripZeros (digitsOf "+1 (555) 123-4567") ∧
      suf.length = min 6 (stripZeros (digitsOf "+1 (555) 123-4567")).length ∧
      ((∃ row, (([⟨"33", "France"⟩] : List DialRow).map normDialRow).find?
          (fun r => hasSub r.country (pyStrip (pyLower "France"))) = some row ∧
          code = row.dial) ∨
        ((([⟨"33", "France"⟩] : List DialRow).map normDialRow).find?
          (fun r => hasSub r.country (pyStrip (pyLower "France"))) = none ∧
          code = "unknow")) :=
  (c7_phone_format "+1 (555) 123-4567" "France" [⟨"33", "France"⟩]).2.1
    (by decide) (by decide)

/-- Counterexample to C7 as stated: an unmatched country yields the
marker `"unknow"`, not the claimed `"unknown"`, and a leading zero of
the raw phone is dropped by the integer round-trip, so the output digits
are not exactly the non-digit-stripped characters.  A country name
carrying regex metacharacters, such as the UNTERM entry
"Bolivia (Plurinational State of)", is moreover not looked up by
substring containment at all (pandas treats it as a regular expression);
the model marks that case `none`. -/
theorem c7_counterexample :
    (fixPhoneNumber "1234567" "Atlantis" [⟨"33", "France"⟩]).1 =
      some "(+unknow) 1 234567" ∧
    (fixPhoneNumber "1234567" "Atlantis" [⟨"33", "France"⟩]).1 ≠
      some "(+unknown) 1 234567" ∧
    (fixPhoneNumber "0123456" "France" [⟨"33", "France"⟩]).1 =
      some "(+33)  123456" ∧
    digitsOf "0123456" ≠ stripZeros (digitsOf "0123456") ∧
    plainPat (pyStrip (pyLower "Bolivia (Plurinational State of)")) = false ∧
    (fixPhoneNumber "1234567" "Bolivia (Plurinational State of)"
      [⟨"591", "Bolivia (Plurinational State of)"⟩]).1 = none := by
  decide

/-- Claim C8 (corrected).  A call to `fixPhoneNumber` does mutate the
global table: lines 213-214 lowercase and strip its country column in
place, so the first call changes it (see the counterexample).  The
rewrite is idempotent, so the table a call leaves behind is a fixed
point: every later call, with any arguments, observes and returns that
same table. -/
theorem c8_table_fixed_after_first_call (p c p2 c2 : String) (t : List DialRow) :
    (fixPhoneNumber p2 c2 (fixPhoneNumber p c t).2).2 = (fixPhoneNumber p c t).2 := by
  rw [fixPhoneNumber_table, fixPhoneNumber_table, List.map_map]
  exact List.map_congr_left (fun r _ => normDialRow_idem r)

/-- Counterexample to C8 as stated: one call changes the stored table. -/
theorem c8_counterexample :
    (fixPhoneNumber "123" "x" [⟨"33", " France "⟩]).2 ≠ [⟨"33", " France "⟩] := by
  decide

/-- Claim C9 (confirmed).  `formatDateTime` is a total function into an
optional timestamp — the `ValueError` of a failed parse is caught, so it
never raises: a structured timestamp passes through unchanged, a string
ending in the UTC marker is parsed with the trailing marker stripped,
any parse failure and any other input type yield `None`. -/
theorem c9_formatDateTime_total :
    (∀ t, formatDateTime (.pts t) = some t) ∧
    formatDateTime .pother = none ∧
    (∀ s : String, s.data.getLast? = some 'Z' →
      formatDateTime (.pstr s) = pyFromIso ⟨s.data.dropLast⟩) ∧
    (∀ s : String, pyFromIso ⟨s.data.dropLast⟩ = none →
      formatDateTime (.pstr s) = none) ∧
    formatDateTime (.pstr "2023-05-15T02:39:02.021Z") =
      some ⟨2023, 5, 15, 2, 39, 2, 21000, none⟩ ∧
    formatDateTime (.pstr "not a dateZ") = none :=
  ⟨fun _ => rfl, rfl, fun _ _ => rfl, fun _ h => h, by decide, by decide⟩

/-- Witness for C9's theorem at concrete inputs. -/
theorem c9_witness :
    formatDateTime (.pstr "2023-05-15T02:39:02.021Z") =
      pyFromIso ⟨("2023-05-15T02:39:02.021Z").data.dropLast⟩ ∧
    formatDateTime (.pstr "not a dateZ") = none :=
  ⟨c9_formatDateTime_total.2.2.1 "2023-05-15T02:39:02.021Z" (by decide),
    c9_formatDateTime_total.2.2.2.1 "not a dateZ" (by decide)⟩

/-- Claim C10 (confirmed).  For every string input the final character is
removed before parsing, whether or not it is a UTC marker; consequently
the string "2023-05-15T02:39:02", a valid ISO-8601 timestamp with no
trailing marker, parses as its truncation — which fails — although the
parser accepts the string as written. -/
theorem c10_unconditional_truncation :
    (∀ s : String, formatDateTime (.pstr s) = pyFromIso ⟨s.data.dropLast⟩) ∧
    pyFromIso "2023-05-15T02:39:02" = some ⟨2023, 5, 15, 2, 39, 2, 0, none⟩ ∧
    formatDateTime (.pstr "2023-05-15T02:39:02") = none :=
  ⟨fun _ => rfl, by decide, by decide⟩

end ETL
